import Mathlib

/-!
Verification development for the `tflowclient` status-synchronization engine.

The definitions below are a shallow embedding of the Python source:

* `src/tflowclient/flow.py` — the `FlowStatus` enumeration, the
  `FlowNode`/`RootFlowNode` tree model with its diff/ingest operations,
  `ExtraFlowNodeInfo`, and the `FlowInterface` facade (caches, refresh and
  save logic).
* `src/tflowclient/cdp_flow.py` — the CDP status-output parser
  (`CdpOutputParserMixin._parse_status_output`) and the save-command
  generation (`CdpInterface._actual_save_node_info`).

Python mutation is modelled by explicit state passing: operations that
mutate a node inside a tree become functions from the root tree to the
updated root tree, with the mutated node addressed by its path (a
`List String`, mirroring the `/`-joined path strings of the source).
Exceptions are modelled with `Option`/`Except`, the monotonic clock by a
`Nat` parameter.
-/

namespace TFlowClient

/-- `FlowStatus` enumeration (flow.py lines 72-82). -/
inductive FlowStatus where
  | ABORTED
  | SUBMITTED
  | ACTIVE
  | QUEUED
  | SUSPENDED
  | COMPLETE
  | UNKNOWN
deriving DecidableEq, Repr

/-- `FlowNode.EXPANDED_STATUSES` (flow.py lines 103-107). -/
def EXPANDED_STATUSES : List FlowStatus := [.ACTIVE, .ABORTED, .SUBMITTED]

/-- `FlowNode.BLINK_STATUSES` (flow.py lines 109-111). -/
def BLINK_STATUSES : List FlowStatus := [.ABORTED]

/-- The scalar fields of a `FlowNode` (flow.py `FlowNode.__init__`):
`_name`, `_status`, `_expanded`, `_user_expanded`, `_flagged`. The
`parent` back-reference is not stored; it is recovered from the position
of the node inside the root tree. -/
structure NodeCore where
  name : String
  status : FlowStatus
  expanded : Bool
  user_expanded : Option (Bool × FlowStatus)
  flagged : Bool
deriving DecidableEq, Repr

/-- A `FlowNode`: scalar fields plus the insertion-ordered children
(`collections.OrderedDict`, modelled as a list in insertion order; the
dict key of a child equals its `name`). -/
inductive FlowNode where
  | mk (core : NodeCore) (children : List FlowNode)

def FlowNode.core : FlowNode → NodeCore
  | .mk c _ => c

def FlowNode.children : FlowNode → List FlowNode
  | .mk _ cs => cs

def FlowNode.name (n : FlowNode) : String := n.core.name

def FlowNode.status (n : FlowNode) : FlowStatus := n.core.status

def FlowNode.expanded (n : FlowNode) : Bool := n.core.expanded

def FlowNode.user_expanded (n : FlowNode) : Option (Bool × FlowStatus) :=
  n.core.user_expanded

def FlowNode.flagged (n : FlowNode) : Bool := n.core.flagged

/-- `FlowNode.__getitem__` (flow.py line 244): child lookup by name. -/
def FlowNode.childGet (n : FlowNode) (x : String) : Option FlowNode :=
  n.children.find? (fun c => c.name == x)

/-- `FlowNode.resolve_path` (flow.py lines 259-275): follow a
`/`-separated path through the children; a `KeyError` becomes `none`.
The empty path returns the node itself. -/
def FlowNode.resolve_path : FlowNode → List String → Option FlowNode
  | n, [] => some n
  | n, x :: p =>
    match n.childGet x with
    | none => none
    | some c => c.resolve_path p

/-- `FlowNode.blink` (flow.py lines 180-183): status in `BLINK_STATUSES`
and no children. -/
def FlowNode.blink (n : FlowNode) : Bool :=
  decide (n.status ∈ BLINK_STATUSES) && n.children.isEmpty

/-- `OrderedDict.__setitem__` on the children map: an existing key keeps
its position and gets the new value, a new key is appended. -/
def upsertChild : List FlowNode → FlowNode → List FlowNode
  | [], c => [c]
  | d :: ds, c => if d.name == c.name then c :: ds else d :: upsertChild ds c

/-- Apply a fallible update to the (first) child carrying a given name;
`none` when no child has that name (Python `KeyError`). -/
def updateChild : List FlowNode → String → (FlowNode → Option FlowNode) → Option (List FlowNode)
  | [], _, _ => none
  | d :: ds, x, f =>
    if d.name == x then (f d).map (· :: ds)
    else (updateChild ds x f).map (d :: ·)

/-- The child object built by `FlowNode.add` (flow.py lines 210-219):
created with `parent=self` so `_expanded` starts `False`, then
`set_expanded_recursively` turns it on when the status is in
`EXPANDED_STATUSES`. -/
def newChild (cname : String) (st : FlowStatus) : FlowNode :=
  .mk { name := cname, status := st,
        expanded := decide (st ∈ EXPANDED_STATUSES),
        user_expanded := none, flagged := false } []

/-- `FlowNode.add` seen from the root of the tree: `addAt cname st p t`
adds a child named `cname` under the node at path `p` of `t`.  The
`OrderedDict` insertion is `upsertChild`; when the status is in
`EXPANDED_STATUSES`, `set_expanded_recursively` (flow.py lines 204-208)
sets `expanded` on the new child and every ancestor up to the root.
`none` when `p` does not resolve. -/
def FlowNode.addAt (cname : String) (st : FlowStatus) : List String → FlowNode → Option FlowNode
  | [], n =>
    some (.mk { n.core with expanded := n.core.expanded || decide (st ∈ EXPANDED_STATUSES) }
      (upsertChild n.children (newChild cname st)))
  | x :: p, n =>
    (updateChild n.children x (FlowNode.addAt cname st p)).map
      (fun cs => .mk { n.core with
        expanded := n.core.expanded || decide (st ∈ EXPANDED_STATUSES) } cs)

/-- Apply a pure update to the node at a given path; `none` when the
path does not resolve. -/
def FlowNode.updateAt (f : FlowNode → FlowNode) : List String → FlowNode → Option FlowNode
  | [], n => some (f n)
  | x :: p, n =>
    (updateChild n.children x (FlowNode.updateAt f p)).map (fun cs => .mk n.core cs)

/-- The `flagged` property setter (flow.py lines 172-178), value part. -/
def FlowNode.withFlagged (n : FlowNode) (v : Bool) : FlowNode :=
  .mk { n.core with flagged := v } n.children

/-- The `user_expanded` property setter (flow.py lines 154-160): stores
the pair of the requested boolean and the node's current status. -/
def FlowNode.setUserExpanded (n : FlowNode) (v : Bool) : FlowNode :=
  .mk { n.core with user_expanded := some (v, n.core.status) } n.children

/-- `FlowNode.ingest_flagged` (flow.py lines 362-370): resolve each path,
silently skip the missing ones, set `flagged = True` on the found node. -/
def FlowNode.ingest_flagged (t : FlowNode) (ps : List (List String)) : FlowNode :=
  ps.foldl (fun acc p => ((FlowNode.updateAt (fun m => m.withFlagged true) p) acc).getD acc) t

/-- The per-entry rule of `FlowNode.ingest_user_expanded` (flow.py lines
382-387): the stored override `(v, pinnedStatus)` is applied — through the
`user_expanded` setter, which re-pins it to the node's current status —
exactly when `v` is true, or the node's status still equals the pinned
status, or the node's status is not in `EXPANDED_STATUSES`. -/
def userExpandedKeep (v : Bool × FlowStatus) (m : FlowNode) : FlowNode :=
  if v.1 || decide (m.status = v.2) || !decide (m.status ∈ EXPANDED_STATUSES) then
    m.setUserExpanded v.1
  else m

/-- `FlowNode.ingest_user_expanded` (flow.py lines 372-387). -/
def FlowNode.ingest_user_expanded (t : FlowNode)
    (ps : List (List String × (Bool × FlowStatus))) : FlowNode :=
  ps.foldl (fun acc q => ((FlowNode.updateAt (userExpandedKeep q.2) q.1) acc).getD acc) t

mutual

/-- `FlowNode._iter_property_paths` (flow.py lines 300-309) specialised to
a boolean property: the node's own path (its name) when the property
holds, then the children's paths in order, all prefixed with the node's
name. -/
def propPathsF (pred : FlowNode → Bool) : FlowNode → List (List String)
  | .mk c cs =>
    (if pred (.mk c cs) then [[c.name]] else [])
      ++ (propPathsListF pred cs).map (fun p => c.name :: p)

def propPathsListF (pred : FlowNode → Bool) : List FlowNode → List (List String)
  | [] => []
  | c :: rest => propPathsF pred c ++ propPathsListF pred rest

end

/-- `FlowNode.flagged_paths` (flow.py lines 311-321): the empty path for
the node itself when flagged, then the flagged descendants' paths
relative to this node. -/
def FlowNode.flagged_paths (n : FlowNode) : List (List String) :=
  (if n.flagged then [[]] else []) ++ propPathsListF FlowNode.flagged n.children

/-- `FlowNode.blink_paths` (flow.py lines 335-342): the paths of blinking
nodes below (and including) this node, relative to this node. -/
def FlowNode.blink_paths (n : FlowNode) : List (List String) :=
  (if n.blink then [[]] else []) ++ propPathsListF FlowNode.blink n.children

mutual

/-- `FlowNode._iter_property_paths` for `_user_expanded` (value-carrying
variant used by `user_expanded_paths`). -/
def uePathsF : FlowNode → List (List String × (Bool × FlowStatus))
  | .mk c cs =>
    (match c.user_expanded with
      | some v => [([c.name], v)]
      | none => [])
      ++ (uePathsListF cs).map (fun q => (c.name :: q.1, q.2))

def uePathsListF : List FlowNode → List (List String × (Bool × FlowStatus))
  | [] => []
  | c :: rest => uePathsF c ++ uePathsListF rest

end

/-- `FlowNode.user_expanded_paths` (flow.py lines 323-333). -/
def FlowNode.user_expanded_paths (n : FlowNode) :
    List (List String × (Bool × FlowStatus)) :=
  (match n.core.user_expanded with
    | some v => [([], v)]
    | none => [])
    ++ uePathsListF n.children

mutual

/-- `FlowNode.__eq__` (flow.py lines 234-242): same name, same status,
same number of children, and the zipped children pairwise equal. -/
def feq : FlowNode → FlowNode → Bool
  | .mk c1 cs1, .mk c2 cs2 =>
    c1.name == c2.name && decide (c1.status = c2.status)
      && cs1.length == cs2.length && feqList cs1 cs2

/-- Pairwise equality of the `zip` of two children lists (`zip`
truncates, exactly as in the source, where it runs under the length
equality test). -/
def feqList : List FlowNode → List FlowNode → Bool
  | a :: as_, b :: bs => feq a b && feqList as_ bs
  | _, _ => true

end

mutual

/-- `FlowNode.flag_status` (flow.py lines 344-353): flag every node with
the given status (only leaves when `leaf` is true); the recursive calls
on children use the default `leaf=True`. -/
def flagStatusF (status : FlowStatus) (leaf : Bool) : FlowNode → FlowNode
  | .mk c cs =>
    .mk (if decide (c.status = status) && (!leaf || cs.isEmpty) then
          { c with flagged := true }
         else c)
      (flagStatusListF status cs)

def flagStatusListF (status : FlowStatus) : List FlowNode → List FlowNode
  | [] => []
  | c :: rest => flagStatusF status true c :: flagStatusListF status rest

end

mutual

/-- `FlowNode.reset_flagged` (flow.py lines 355-360): clear the flag on
the node and all descendants. -/
def resetFlaggedF : FlowNode → FlowNode
  | .mk c cs => .mk { c with flagged := false } (resetFlaggedListF cs)

def resetFlaggedListF : List FlowNode → List FlowNode
  | [] => []
  | c :: rest => resetFlaggedF c :: resetFlaggedListF rest

end

/-- `FlowNode.set_expanded_recursively` (flow.py lines 204-208) seen from
the root: set `expanded` on the node at the given path and on every
ancestor up to (and including) the root. `none` when the path does not
resolve. -/
def FlowNode.set_expanded_along : List String → FlowNode → Option FlowNode
  | [], n => some (.mk { n.core with expanded := true } n.children)
  | x :: p, n =>
    (updateChild n.children x (FlowNode.set_expanded_along p)).map
      (fun cs => .mk { n.core with expanded := true } cs)

/-- `RootFlowNode` (flow.py lines 390-432): a parent-less `FlowNode` plus
the creation time (`time.monotonic()`, modelled as a `Nat` supplied by
the caller) and the focused node (a reference into the tree, modelled by
its path relative to the root). -/
structure RootFlowNode where
  tree : FlowNode
  c_time : Nat
  focused : Option (List String)

/-- `RootFlowNode.__init__`: a root is built with `parent=None`, hence
`_expanded = True`; no children, no focus yet. -/
def mkRootFlowNode (name : String) (st : FlowStatus) (now : Nat) : RootFlowNode :=
  { tree := .mk { name := name, status := st, expanded := true,
                  user_expanded := none, flagged := false } [],
    c_time := now, focused := none }

/-- `RootFlowNode.age` (flow.py lines 402-405). -/
def RootFlowNode.age (r : RootFlowNode) (now : Nat) : Nat := now - r.c_time

/-- `RootFlowNode.touch` (flow.py lines 407-409). -/
def RootFlowNode.touch (r : RootFlowNode) (now : Nat) : RootFlowNode :=
  { r with c_time := now }

/-- Python set inclusion `a <= b` on path sets. -/
def subsetPaths (a b : List (List String)) : Bool :=
  a.all (fun p => b.contains p)

/-- `RootFlowNode.ingest_focused` (flow.py lines 422-432): when the new
tree's blink-path set is included in the old one, resolve the old focused
path and focus it when found; otherwise leave the focus untouched. -/
def RootFlowNode.ingest_focused (r : RootFlowNode) (fp : List String)
    (bps : List (List String)) : RootFlowNode :=
  if subsetPaths r.tree.blink_paths bps then
    match r.tree.resolve_path fp with
    | none => r
    | some _ => { r with focused := some fp }
  else r

/-- `ExtraFlowNodeInfo` (flow.py lines 435-513).  `initial_value` is the
constructor's `value` argument (`None` allowed), `edited_value` is the
private `_value` (starts `None`, set through the `value` setter). -/
structure ExtraFlowNodeInfo where
  kind : String
  name : String
  initial_value : Option String
  edited_value : Option String
  description : String
  editable : Bool
deriving DecidableEq, Repr

/-- `ExtraFlowNodeInfo.__init__` (flow.py lines 438-460): raises
`ValueError` when `editable` is set while the initial value is `None`. -/
def mkExtraFlowNodeInfo (kind name : String) (value : Option String)
    (description : String) (editable : Bool) : Except String ExtraFlowNodeInfo :=
  if editable && value.isNone then
    .error "incoherent editable and value settings."
  else
    .ok { kind := kind, name := name, initial_value := value,
          edited_value := none, description := description, editable := editable }

/-- The `value` property getter (flow.py lines 487-490): the edited value
when set, else the initial one. -/
def ExtraFlowNodeInfo.value (i : ExtraFlowNodeInfo) : Option String :=
  match i.edited_value with
  | none => i.initial_value
  | some v => some v

/-- The `value` property setter (flow.py lines 492-498): `RuntimeError`
on a read-only record, otherwise store the new value. -/
def ExtraFlowNodeInfo.setValue (i : ExtraFlowNodeInfo) (v : String) :
    Except String ExtraFlowNodeInfo :=
  if !i.editable then .error "A readonly information cannot be modified"
  else .ok { i with edited_value := some v }

/-- `ExtraFlowNodeInfo.touched` (flow.py lines 510-513): an edited value
is set and differs from the initial one. -/
def ExtraFlowNodeInfo.touched (i : ExtraFlowNodeInfo) : Bool :=
  i.edited_value.isSome && i.edited_value != i.initial_value

/-- Python `str(x)` on an optional string (the `{!s}` format spec used in
`_actual_save_node_info`). -/
def pyStr (v : Option String) : String := v.getD "None"

/-- Python truthiness of `change.value` (a string or `None`). -/
def pyTruthy (v : Option String) : Bool :=
  match v with
  | none => false
  | some s => !s.isEmpty

/-- Python `str.endswith` (kernel-executable form of `String.endsWith`). -/
def pyEndsWith (s suffix : String) : Bool :=
  List.isSuffixOf suffix.toList s.toList

/-- One iteration of the command-generation loop of
`CdpInterface._actual_save_node_info` (cdp_flow.py lines 735-768): the
commands appended to the stack for one record, or the raised error. -/
def saveCmdsFor (node_sms_path : String) (change : ExtraFlowNodeInfo) :
    Except String (List String) :=
  if change.kind == "flowspecific" && change.name == "MaxTries" then
    if pyTruthy change.value then
      .ok ["alter -v " ++ node_sms_path ++ " SMSTRIES " ++ pyStr change.value]
    else
      .ok ["alter -r -v " ++ node_sms_path ++ " SMSTRIES"]
  else if change.kind == "limit" then
    match change.value with
    | none => .error "AttributeError"
    | some v =>
      .ok ((if pyEndsWith v "reset" then []
            else ["alter -M " ++ node_sms_path ++ ":" ++ change.name ++ " " ++ v])
        ++ ["reset " ++ node_sms_path ++ ":" ++ change.name])
  else if change.kind == "meter" then
    .ok ["alter -m " ++ node_sms_path ++ ":" ++ change.name ++ " " ++ pyStr change.value]
  else if change.kind == "repeat" then
    .ok ["alter -R " ++ node_sms_path ++ ":" ++ change.name ++ " " ++ pyStr change.value]
  else
    .error "NotImplementedError"

/-- `CdpInterface._actual_save_node_info` (cdp_flow.py lines 728-773),
command-generation part: the full command stack, or the first raised
error (which aborts the whole save before anything is sent). -/
def actual_save_node_info (node_sms_path : String) :
    List ExtraFlowNodeInfo → Except String (List String)
  | [] => .ok []
  | change :: rest =>
    match saveCmdsFor node_sms_path change with
    | .error e => .error e
    | .ok cmds =>
      match actual_save_node_info node_sms_path rest with
      | .error e => .error e
      | .ok more => .ok (cmds ++ more)

/-- `FlowInterface.save_node_info` (flow.py lines 819-827): keep only the
`touched` records; when none remains, return `None` without submitting
anything. -/
def save_node_info (node_sms_path : String) (info : List ExtraFlowNodeInfo) :
    Except String (Option (List String)) :=
  let todo := info.filter ExtraFlowNodeInfo.touched
  if todo.isEmpty then .ok none
  else (actual_save_node_info node_sms_path todo).map some

/-- The mutable caches of a `FlowInterface` (flow.py `__init__`):
`_tree_roots` and the per-root `_full_statuses` dict. -/
structure FlowIfaceState where
  tree_roots : Option RootFlowNode
  full_statuses : List (String × RootFlowNode)

/-- Ordered-dict lookup on the `_full_statuses` cache. -/
def lookupA (m : List (String × RootFlowNode)) (k : String) : Option RootFlowNode :=
  (m.find? (fun e => e.1 == k)).map (fun e => e.2)

/-- Ordered-dict assignment on the `_full_statuses` cache. -/
def upsertA : List (String × RootFlowNode) → String → RootFlowNode → List (String × RootFlowNode)
  | [], k, v => [(k, v)]
  | e :: es, k, v => if e.1 == k then (k, v) :: es else e :: upsertA es k v

/-- Structural equality of two `RootFlowNode`s: `FlowNode.__eq__` applied
to the trees (`c_time` and `focused` play no role in `__eq__`). -/
def rootFeq (a b : RootFlowNode) : Bool := feq a.tree b.tree

/-- The ingest chain of `FlowInterface._set_full_status` (flow.py lines
685-694): carry the old focus (given by its path), the old flagged paths
and the old user-expanded overrides over to the new tree, in the
source's order. -/
def ingestAll (value old : RootFlowNode) (fp : List String) : RootFlowNode :=
  let v1 := value.ingest_focused fp old.tree.blink_paths
  let v2 := { v1 with tree := v1.tree.ingest_flagged old.tree.flagged_paths }
  { v2 with tree := v2.tree.ingest_user_expanded old.tree.user_expanded_paths }

/-- `FlowInterface._set_full_status` (flow.py lines 679-696).  The result
is the new cache plus a flag telling whether `_notify_status` ran.  When
the new tree equals the cached one structurally, the cached object is
kept and merely `touch`ed; otherwise the old focus (`focused.path` — an
`AttributeError` when no node is focused), flagged paths and
user-expanded overrides are ingested into the new value before it
replaces the cached one. -/
def set_full_status (s : FlowIfaceState) (path : String) (value : RootFlowNode)
    (now : Nat) : Except String (FlowIfaceState × Bool) :=
  match lookupA s.full_statuses path with
  | some old =>
    if rootFeq value old then
      .ok ({ s with full_statuses := upsertA s.full_statuses path (old.touch now) }, false)
    else
      match old.focused with
      | none => .error "AttributeError"
      | some fp =>
        .ok ({ s with
          full_statuses := upsertA s.full_statuses path (ingestAll value old fp) }, true)
  | none =>
    .ok ({ s with full_statuses := upsertA s.full_statuses path value }, true)

/-- `FlowInterface.tree_roots` (flow.py lines 631-643): fetch on first
access, then raise when the (fetched or cached) roots node has zero
children.  The boolean records whether `_retrieve_tree_roots` ran. -/
def tree_roots_acc (s : FlowIfaceState) (fetchRoots : RootFlowNode) :
    Except String (RootFlowNode × FlowIfaceState × Bool) :=
  let fetched :=
    match s.tree_roots with
    | none => (fetchRoots, { s with tree_roots := some fetchRoots }, true)
    | some tr => (tr, s, false)
  if fetched.1.tree.children.isEmpty then
    .error "Connexion to the server failed or suite does not exists/is empty"
  else .ok fetched

/-- `FlowInterface.full_status` (flow.py lines 667-677): raise when the
path is not among the tree roots' children, else return the cached
subtree, calling `_retrieve_status` only on a cache miss.  The boolean
records whether `_retrieve_status` ran. -/
def full_status (s : FlowIfaceState) (fetchRoots : RootFlowNode)
    (fetchStatus : String → RootFlowNode) (path : String) :
    Except String (RootFlowNode × FlowIfaceState × Bool) :=
  match tree_roots_acc s fetchRoots with
  | .error e => .error e
  | .ok (tr, s1, _) =>
    if (tr.tree.childGet path).isNone then
      .error "The path base node is not in the tree roots list."
    else
      match lookupA s1.full_statuses path with
      | some cached => .ok (cached, s1, false)
      | none =>
        let v := fetchStatus path
        .ok (v, { s1 with full_statuses := upsertA s1.full_statuses path v }, true)

/-! ### The CDP status-output parser (cdp_flow.py lines 132-233)

The regular expressions of `CdpOutputParserMixin` are implemented as
character-level scanners.  For `_STATUS_DETECT`
(`([\w/]+)\s*[{\[](\w{3})[]}](\s*)`) the character classes of consecutive
regex elements are pairwise disjoint, so the greedy scan below is
equivalent to the backtracking regex engine. -/

/-- Python `\w` (ASCII part, the only one exercised by CDP output). -/
def isWordChar (c : Char) : Bool := c.isAlphanum || c == '_'

/-- The `[\w/]` class of the status regex. -/
def isWordSlashChar (c : Char) : Bool := isWordChar c || c == '/'

/-- Python `\s`. -/
def isSpaceChar (c : Char) : Bool :=
  c == ' ' || c == '\t' || c == '\n' || c == '\r'
    || c == Char.ofNat 11 || c == Char.ofNat 12

/-- One `_STATUS_DETECT` match object: the node name (group 1), the
3-letter status code (group 2) and the length of the whole match
(`len(m.group(0))`, used for the indentation bookkeeping). -/
structure Token where
  name : String
  code : String
  matchLen : Nat
deriving DecidableEq, Repr

/-- Try to match `_STATUS_DETECT` at the head of the character list;
return the match and the remaining characters. -/
def tryTok (cs : List Char) : Option (Token × List Char) :=
  let w := cs.takeWhile isWordSlashChar
  let r1 := cs.dropWhile isWordSlashChar
  if w.isEmpty then none
  else
    let sp1 := r1.takeWhile isSpaceChar
    let r2 := r1.dropWhile isSpaceChar
    match r2 with
    | b :: c1 :: c2 :: c3 :: e :: r5 =>
      if (b == '{' || b == '[') && isWordChar c1 && isWordChar c2 && isWordChar c3
          && (e == ']' || e == '}') then
        let sp2 := r5.takeWhile isSpaceChar
        let r6 := r5.dropWhile isSpaceChar
        some ({ name := String.mk w, code := String.mk [c1, c2, c3],
                matchLen := w.length + sp1.length + 5 + sp2.length }, r6)
      else none
    | _ => none

/-- `finditer` on one line: try a match at every position, left to right,
resuming after each match.  A successful `tryTok` consumes at least five
characters, so `cs.length` steps of fuel are never exhausted. -/
def scanAux : Nat → List Char → List Token
  | 0, _ => []
  | _, [] => []
  | fuel + 1, c :: rest =>
    match tryTok (c :: rest) with
    | some (t, rem) => t :: scanAux fuel rem
    | none => scanAux fuel rest

def scanTokens (cs : List Char) : List Token := scanAux cs.length cs

/-- `_STATUS_TRANSLATION` (cdp_flow.py lines 138-146); an unknown code is
a `KeyError`. -/
def statusOfCode : String → Option FlowStatus
  | "com" => some .COMPLETE
  | "que" => some .QUEUED
  | "sus" => some .SUSPENDED
  | "abo" => some .ABORTED
  | "sub" => some .SUBMITTED
  | "act" => some .ACTIVE
  | "unk" => some .UNKNOWN
  | _ => none

/-- Python `str.strip("/")`. -/
def stripSlashes (s : String) : String :=
  String.mk (((s.toList.dropWhile (· == '/')).reverse.dropWhile (· == '/')).reverse)

/-- Python `str.startswith` (kernel-executable form of
`String.startsWith`). -/
def pyStartsWith (s p : String) : Bool :=
  List.isPrefixOf p.toList s.toList

/-- `_OUTPUT_IGNORE` (cdp_flow.py line 135): `\s*(# MSG|Welcome|Goodbye)`
matched at the start of the line. -/
def ignoreLine (line : String) : Bool :=
  let t := String.mk (line.toList.dropWhile isSpaceChar)
  pyStartsWith t "# MSG" || pyStartsWith t "Welcome" || pyStartsWith t "Goodbye"

/-- The ancestor-chain truncation of `_parse_status_output` (cdp_flow.py
lines 191-198): keep the longest prefix of the previous line's matches
whose cumulative matched width stays within the new line's leading
blanks. -/
def baseMatches : List Token → Nat → List Token
  | [], _ => []
  | t :: ts, blanks =>
    if blanks < t.matchLen then []
    else t :: baseMatches ts (blanks - t.matchLen)

/-- The loop state of `_parse_status_output`: the ordered result map
`root_nodes`, the `from_suite` flag, `current_node` (a reference to the
most recently created root, modelled by its name — every site that
rebinds the dict entry also rebinds `current_node`), and the previous
`last_matches` list. -/
structure ParseState where
  root_nodes : List (String × FlowNode)
  from_suite : Bool
  current : Option String
  last_matches : List Token

/-- The tree of a freshly constructed `RootFlowNode(name, status)`. -/
def mkRootTree (name : String) (st : FlowStatus) : FlowNode :=
  .mk { name := name, status := st, expanded := true,
        user_expanded := none, flagged := false } []

/-- Ordered-dict lookup on the parser's `root_nodes` map. -/
def lookupRoot (m : List (String × FlowNode)) (k : String) : Option FlowNode :=
  (m.find? (fun e => e.1 == k)).map (fun e => e.2)

/-- Ordered-dict assignment on the parser's `root_nodes` map. -/
def upsertRoot : List (String × FlowNode) → String → FlowNode → List (String × FlowNode)
  | [], k, v => [(k, v)]
  | e :: es, k, v => if e.1 == k then (k, v) :: es else e :: upsertRoot es k v

/-- The suite-line checks of `_parse_status_output` (cdp_flow.py lines
205-216) for a token that is not the suite itself: validate the suite
strip-prefix and the depth, and return the root entry's name.  A pure
function of the token and the suite. -/
def suiteRootEntry (suite : String) (tok : Token) : Except String String :=
  let s_name := (stripSlashes tok.name).splitOn "/"
  let s_suite := (stripSlashes suite).splitOn "/"
  if !(s_name.take s_suite.length == s_suite) then
    .error "ValueError: the output suite name does not match"
  else if s_suite.length + 1 < s_name.length then
    .error "RuntimeError: cannot work with such a status tree"
  else
    match s_name.drop s_suite.length with
    | [] => .error "IndexError"
    | current_name :: _ => .ok current_name

/-- Processing of one `_STATUS_DETECT` match inside the line loop of
`_parse_status_output` (cdp_flow.py lines 199-232). -/
def processToken (suite : String) (st : ParseState) (tok : Token) :
    Except String ParseState :=
  match statusOfCode tok.code with
  | none => .error "KeyError: unknown status code"
  | some status =>
    if st.last_matches.isEmpty then
      if stripSlashes tok.name == suite then
        .ok { st with from_suite := true, last_matches := st.last_matches ++ [tok] }
      else
        match suiteRootEntry suite tok with
        | .error e => .error e
        | .ok current_name =>
          .ok { root_nodes := upsertRoot st.root_nodes current_name
                  (mkRootTree current_name status)
                from_suite := false
                current := some current_name
                last_matches := st.last_matches ++ [tok] }
    else if st.last_matches.length == 1 && st.from_suite then
      .ok { st with
            root_nodes := upsertRoot st.root_nodes tok.name (mkRootTree tok.name status)
            current := some tok.name
            last_matches := st.last_matches ++ [tok] }
    else
      match st.current with
      | none => .error "TypeError: no current node"
      | some rname =>
        match lookupRoot st.root_nodes rname with
        | none => .error "KeyError: current root vanished"
        | some tree =>
          let path := (st.last_matches.drop (1 + (if st.from_suite then 1 else 0))).map Token.name
          match FlowNode.addAt tok.name status path tree with
          | none => .error "KeyError: broken ancestor chain"
          | some tree2 =>
            .ok { st with
                  root_nodes := upsertRoot st.root_nodes rname tree2
                  last_matches := st.last_matches ++ [tok] }

/-- `initial_blanks`: the number of leading space characters of a line
(`len(line) - len(line.lstrip(" "))`). -/
def countBlanks (line : String) : Nat :=
  (line.toList.takeWhile (fun c => c == ' ')).length

/-- `short_line`: the line with its leading spaces removed. -/
def shortLine (line : String) : List Char :=
  line.toList.dropWhile (fun c => c == ' ')

/-- Processing of one output line of `_parse_status_output` (cdp_flow.py
lines 178-232): skip ignored lines, count the leading spaces, scan the
matches; when there is at least one, truncate the inherited ancestor
chain before handling the first one. -/
def processLine (suite : String) (st : ParseState) (line : String) :
    Except String ParseState :=
  if ignoreLine line then .ok st
  else
    match scanTokens (shortLine line) with
    | [] => .ok st
    | t0 :: rest =>
      let st0 := { st with last_matches := baseMatches st.last_matches (countBlanks line) }
      (t0 :: rest).foldlM (processToken suite) st0

/-- `CdpOutputParserMixin._parse_status_output` (cdp_flow.py lines
168-233) on a list of output lines: the insertion-ordered map from root
name to the root's status tree, or the raised parse error. -/
def parse_status_output (suite : String) (lines : List String) :
    Except String (List (String × FlowNode)) :=
  (lines.foldlM (processLine suite) ⟨[], false, none, []⟩).map ParseState.root_nodes

/-! ### Auxiliary definitions for the verification -/

/-- Invariant of the parser loop: `current_node` (modelled by its name)
always denotes an entry of `root_nodes`. -/
def goodState (st : ParseState) : Prop :=
  ∀ r, st.current = some r → r ∈ st.root_nodes.map Prod.fst

/-- Invariant of the parser loop: every retained match has a positive
matched width (every `_STATUS_DETECT` match spans at least five
characters). -/
def posLM (st : ParseState) : Prop :=
  ∀ tok, tok ∈ st.last_matches → 1 ≤ tok.matchLen

/-- Simulation relation between a parse of a block from the initial state
(`f`) and the same parse resumed after an earlier block whose result map
is `R1` (`g`). -/
def relW (R1 : List (String × FlowNode)) (f g : ParseState) : Prop :=
  g.root_nodes = R1 ++ f.root_nodes
  ∧ g.last_matches = f.last_matches
  ∧ (f.current = none ∨ g.current = f.current)
  ∧ (f.last_matches = [] ∨ g.from_suite = f.from_suite)
  ∧ goodState f

/-- A status block is anchored at column zero: its first line carrying
any `_STATUS_DETECT` match has no leading blank (the shape of the first
line of any `status` command reply, which starts with the monitored
suite). -/
def beginsAtZeroIndent : List String → Bool
  | [] => true
  | l :: ls =>
    if ignoreLine l then beginsAtZeroIndent ls
    else
      match scanTokens (shortLine l) with
      | [] => beginsAtZeroIndent ls
      | _ :: _ => countBlanks l == 0

/-- Concrete root core used by the test fixtures below. -/
def demoCore (name : String) (st : FlowStatus) : NodeCore :=
  { name := name, status := st, expanded := true,
    user_expanded := none, flagged := false }

/-- Fixture: a root with two children `a` and `b`, both `COMPLETE`. -/
def c9tree : FlowNode :=
  .mk (demoCore "r" .ACTIVE) [newChild "a" .COMPLETE, newChild "b" .COMPLETE]

/-- Fixture: a root with one `QUEUED` child `a`. -/
def c1tree : FlowNode :=
  .mk (demoCore "r" .ACTIVE) [newChild "a" .QUEUED]

/-- Fixture: a touched, editable `limit` record whose edited value ends
with `reset` without being the `"reset"` sentinel. -/
def c8limitRec : ExtraFlowNodeInfo :=
  { kind := "limit", name := "lim1", initial_value := some "5",
    edited_value := some "xreset", description := "", editable := true }

/-- Fixture: a freshly parsed root (no focus yet). -/
def c3root : RootFlowNode := { tree := c1tree, c_time := 0, focused := none }

/-- Fixture: a cached root status with a focused node. -/
def c5old : RootFlowNode := { tree := c1tree, c_time := 5, focused := some [] }

/-- Fixture: a freshly retrieved, structurally identical root status. -/
def c5new : RootFlowNode := { tree := c1tree, c_time := 9, focused := none }

/-- Fixture: a facade state with one cached full status. -/
def c5state : FlowIfaceState :=
  { tree_roots := none, full_statuses := [("A157", c5old)] }

/-- Fixture: a non-empty tree-roots container. -/
def c6roots : RootFlowNode :=
  { tree := .mk (demoCore "" .UNKNOWN) [newChild "A157" .ABORTED],
    c_time := 0, focused := none }

/-- Fixture: a facade state with cached roots and one cached status. -/
def c6state : FlowIfaceState :=
  { tree_roots := some c6roots, full_statuses := [("A157", c5old)] }

/-- Fixture: an empty tree-roots container. -/
def c6empty : RootFlowNode :=
  { tree := .mk (demoCore "" .UNKNOWN) [], c_time := 0, focused := none }

/-- Fixture: a one-line status block of suite `groucho` with root `r1`. -/
def c4b1 : List String := ["groucho{abo}   r1{abo}"]

/-- Fixture: a one-line status block of suite `groucho` with root `r2`. -/
def c4b2 : List String := ["groucho{que}   r2{que}"]

/-- Stand-alone parse result of `c4b1`. -/
def c4R1 : List (String × FlowNode) := [("r1", mkRootTree "r1" .ABORTED)]

/-- Stand-alone parse result of `c4b2`. -/
def c4R2 : List (String × FlowNode) := [("r2", mkRootTree "r2" .QUEUED)]

/-! ### Theorems -/

/-- C7: for every `ExtraFlowNodeInfo` record, (1) constructing it with
`editable` true and a nil initial value fails; (2) setting its value
raises exactly when `editable` is false (the error carries no record, so
the stored value is untouched); (3) a successful set to `v` makes `value`
resolve to `v`, and `touched` becomes true exactly when `v` differs from
the initial value; (4) a freshly constructed record resolves `value` to
the initial value and is not `touched`. -/
theorem claim_C7 (kind nm desc : String) (v0 : Option String) (ed : Bool)
    (i : ExtraFlowNodeInfo) (v : String) :
    mkExtraFlowNodeInfo kind nm none desc true
        = .error "incoherent editable and value settings."
    ∧ (i.editable = false →
        i.setValue v = .error "A readonly information cannot be modified")
    ∧ (i.editable = true →
        i.setValue v = .ok { i with edited_value := some v })
    ∧ (∀ j, i.setValue v = .ok j →
        j.value = some v ∧ (j.touched = true ↔ some v ≠ i.initial_value))
    ∧ (∀ j, mkExtraFlowNodeInfo kind nm v0 desc ed = .ok j →
        j.value = v0 ∧ j.touched = false) := by
  refine ⟨rfl, ?_, ?_, ?_, ?_⟩
  · intro h
    simp [ExtraFlowNodeInfo.setValue, h]
  · intro h
    simp [ExtraFlowNodeInfo.setValue, h]
  · intro j hj
    unfold ExtraFlowNodeInfo.setValue at hj
    by_cases h : i.editable
    · simp only [h, Bool.not_true, Bool.false_eq_true, if_false] at hj
      cases hj
      refine ⟨rfl, ?_⟩
      simp [ExtraFlowNodeInfo.touched, bne_iff_ne]
    · simp [h] at hj
  · intro j hj
    unfold mkExtraFlowNodeInfo at hj
    by_cases h : (ed && v0.isNone) = true
    · simp [h] at hj
    · simp only [h, if_false] at hj
      cases hj
      exact ⟨rfl, rfl⟩

/-- Witness for C7 at a concrete record (an editable `MaxTries`-like
record with initial value `"2"`, edited to `"3"`). -/
theorem claim_C7_witness :
    mkExtraFlowNodeInfo "flowspecific" "MaxTries" none "d" true
        = .error "incoherent editable and value settings."
    ∧ ExtraFlowNodeInfo.setValue
        { kind := "flowspecific", name := "MaxTries", initial_value := some "2",
          edited_value := none, description := "d", editable := true } "3"
        = .ok { kind := "flowspecific", name := "MaxTries", initial_value := some "2",
                edited_value := some "3", description := "d", editable := true } := by
  have h := claim_C7 "flowspecific" "MaxTries" "d" (some "2") true
    { kind := "flowspecific", name := "MaxTries", initial_value := some "2",
      edited_value := none, description := "d", editable := true } "3"
  exact ⟨h.1, h.2.2.1 rfl⟩

/-! ### Tree machinery lemmas -/

@[simp]
theorem FlowNode.core_mk (c : NodeCore) (cs : List FlowNode) :
    (FlowNode.mk c cs).core = c := rfl

@[simp]
theorem FlowNode.children_mk (c : NodeCore) (cs : List FlowNode) :
    (FlowNode.mk c cs).children = cs := rfl

@[simp]
theorem FlowNode.name_mk (c : NodeCore) (cs : List FlowNode) :
    (FlowNode.mk c cs).name = c.name := rfl

theorem find_upsertChild_self (cs : List FlowNode) (c : FlowNode) :
    (upsertChild cs c).find? (fun d => d.name == c.name) = some c := by
  induction cs with
  | nil => simp [upsertChild, List.find?_cons]
  | cons d ds ih =>
    by_cases h : (d.name == c.name) = true
    · simp [upsertChild, h, List.find?_cons]
    · have h' : (d.name == c.name) = false := by simpa using h
      simp only [upsertChild, h', Bool.false_eq_true, if_false]
      simp only [List.find?_cons, h']
      exact ih

theorem find_upsertChild_other (cs : List FlowNode) (c : FlowNode) (y : String)
    (hy : y ≠ c.name) :
    (upsertChild cs c).find? (fun d => d.name == y)
      = cs.find? (fun d => d.name == y) := by
  have hcy : (c.name == y) = false := by simp [Ne.symm hy]
  induction cs with
  | nil => simp [upsertChild, List.find?_cons, hcy]
  | cons d ds ih =>
    by_cases h : (d.name == c.name) = true
    · have hdc : d.name = c.name := by simpa using h
      have hdy : (d.name == y) = false := by simp [hdc, Ne.symm hy]
      simp only [upsertChild, h, if_true]
      simp [List.find?_cons, hdy, hcy]
    · have h' : (d.name == c.name) = false := by simpa using h
      simp only [upsertChild, h', Bool.false_eq_true, if_false]
      by_cases hdy : (d.name == y) = true
      · simp [List.find?_cons, hdy]
      · have hdy' : (d.name == y) = false := by simpa using hdy
        simp only [List.find?_cons, hdy']
        exact ih

theorem upsertChild_of_not_mem (cs : List FlowNode) (c : FlowNode)
    (h : c.name ∉ cs.map FlowNode.name) :
    upsertChild cs c = cs ++ [c] := by
  induction cs with
  | nil => rfl
  | cons d ds ih =>
    simp only [List.map_cons, List.mem_cons] at h
    push_neg at h
    have h' : (d.name == c.name) = false := by simp [Ne.symm h.1]
    simp only [upsertChild, h', Bool.false_eq_true, if_false, List.cons_append]
    exact congrArg (d :: ·) (ih h.2)

theorem upsertChild_names_of_mem (cs : List FlowNode) (c : FlowNode)
    (h : c.name ∈ cs.map FlowNode.name) :
    (upsertChild cs c).map FlowNode.name = cs.map FlowNode.name := by
  induction cs with
  | nil => simp at h
  | cons d ds ih =>
    by_cases hd : d.name == c.name
    · have hdc : d.name = c.name := by simpa using hd
      simp [upsertChild, hd, hdc]
    · have hdc : ¬d.name = c.name := by simpa using hd
      simp only [List.map_cons, List.mem_cons] at h
      rcases h with h | h
      · exact absurd h.symm hdc
      · simp only [upsertChild, hd, Bool.false_eq_true, if_false, List.map_cons]
        rw [ih h]

theorem upsertChild_names_nodup (cs : List FlowNode) (c : FlowNode)
    (h : (cs.map FlowNode.name).Nodup) :
    ((upsertChild cs c).map FlowNode.name).Nodup := by
  by_cases hm : c.name ∈ cs.map FlowNode.name
  · rw [upsertChild_names_of_mem cs c hm]
    exact h
  · rw [upsertChild_of_not_mem cs c hm]
    simp only [List.map_append, List.map_cons, List.map_nil]
    rw [List.nodup_append]
    refine ⟨h, List.nodup_singleton _, ?_⟩
    intro a ha hb
    simp only [List.mem_singleton] at hb
    exact hm (hb ▸ ha)

theorem updateChild_none_iff (cs : List FlowNode) (x : String)
    (f : FlowNode → Option FlowNode) :
    updateChild cs x f = none
      ↔ ∀ d, cs.find? (fun c => c.name == x) = some d → f d = none := by
  induction cs with
  | nil => simp [updateChild]
  | cons d ds ih =>
    by_cases h : (d.name == x) = true
    · simp only [updateChild, h, if_true, List.find?_cons]
      constructor
      · intro hm e he
        cases he
        cases hf : f d with
        | none => rfl
        | some w => simp [hf] at hm
      · intro hall
        have := hall d (by simp [h])
        simp [this]
    · have h' : (d.name == x) = false := by simpa using h
      simp only [updateChild, h', Bool.false_eq_true, if_false, List.find?_cons]
      constructor
      · intro hm
        intro e he
        cases hu : updateChild ds x f with
        | none => exact (ih.mp hu) e he
        | some w => simp [hu] at hm
      · intro hall
        have : updateChild ds x f = none := by
          apply ih.mpr
          intro e he
          exact hall e (by simp [h', he])
        simp [this]

theorem updateChild_spec (x : String) (f : FlowNode → Option FlowNode)
    (hname : ∀ d d', f d = some d' → d'.core.name = d.core.name) :
    ∀ cs cs', updateChild cs x f = some cs' →
      ∃ d d', cs.find? (fun c => c.name == x) = some d ∧ f d = some d'
        ∧ cs'.find? (fun c => c.name == x) = some d'
        ∧ ∀ y, y ≠ x →
            cs'.find? (fun c => c.name == y) = cs.find? (fun c => c.name == y) := by
  intro cs
  induction cs with
  | nil => intro cs' h; simp [updateChild] at h
  | cons d ds ih =>
    intro cs' h
    by_cases hd : (d.name == x) = true
    · simp only [updateChild, hd, if_true, Option.map_eq_some'] at h
      obtain ⟨d', hfd, hcs'⟩ := h
      have hdn : d'.name = d.name := hname d d' hfd
      refine ⟨d, d', ?_, hfd, ?_, ?_⟩
      · simp [List.find?_cons, hd]
      · subst hcs'
        have hd' : (d'.name == x) = true := by
          rw [hdn] at *; exact hd
        simp [List.find?_cons, hd']
      · intro y hy
        subst hcs'
        have hdy : (d.name == y) = false := by
          have hxd : d.name = x := by simpa using hd
          simp [hxd, Ne.symm hy]
        have hdy' : (d'.name == y) = false := by rw [hdn] at *; exact hdy
        simp [List.find?_cons, hdy, hdy']
    · have hd' : (d.name == x) = false := by simpa using hd
      simp only [updateChild, hd', Bool.false_eq_true, if_false, Option.map_eq_some'] at h
      obtain ⟨ds', hds', hcs'⟩ := h
      obtain ⟨e, e', h1, h2, h3, h4⟩ := ih ds' hds'
      refine ⟨e, e', ?_, h2, ?_, ?_⟩
      · simp only [List.find?_cons, hd']; exact h1
      · subst hcs'
        simp only [List.find?_cons, hd']; exact h3
      · intro y hy
        subst hcs'
        by_cases hdy : (d.name == y) = true
        · simp [List.find?_cons, hdy]
        · have hdy' : (d.name == y) = false := by simpa using hdy
          simp only [List.find?_cons, hdy']
          exact h4 y hy

theorem updateAt_pres_name (f : FlowNode → FlowNode)
    (hname : ∀ m, (f m).core.name = m.core.name) :
    ∀ (p : List String) (d d' : FlowNode),
      FlowNode.updateAt f p d = some d' → d'.core.name = d.core.name := by
  intro p d d' h
  cases p with
  | nil =>
    simp only [FlowNode.updateAt, Option.some.injEq] at h
    exact h ▸ hname d
  | cons x p' =>
    simp only [FlowNode.updateAt, Option.map_eq_some'] at h
    obtain ⟨cs', _, hd'⟩ := h
    simp [← hd']

theorem updateAt_eq_none (f : FlowNode → FlowNode) :
    ∀ (p : List String) (t : FlowNode),
      FlowNode.updateAt f p t = none ↔ t.resolve_path p = none := by
  intro p
  induction p with
  | nil => intro t; simp [FlowNode.updateAt, FlowNode.resolve_path]
  | cons x p' ih =>
    intro t
    simp only [FlowNode.updateAt, Option.map_eq_none', FlowNode.resolve_path,
      FlowNode.childGet]
    rw [updateChild_none_iff]
    cases hf : t.children.find? (fun c => c.name == x) with
    | none => simp [hf]
    | some d =>
      constructor
      · intro hall
        have := (ih d).mp (hall d rfl)
        simp [this]
      · intro hres e he
        cases he
        exact (ih d).mpr hres

/-- Master lemma for path updates: a successful `updateAt f p` applies
`f` exactly at the node resolved by `p` and leaves the scalar core of
every other node untouched (provided `f` keeps the node's name and
children). -/
theorem updateAt_some_spec (f : FlowNode → FlowNode)
    (hname : ∀ m, (f m).core.name = m.core.name)
    (hch : ∀ m, (f m).children = m.children) :
    ∀ (p : List String) (t t' : FlowNode),
      FlowNode.updateAt f p t = some t' →
      (∃ n, t.resolve_path p = some n ∧ t'.resolve_path p = some (f n))
      ∧ ∀ q, q ≠ p →
          (t'.resolve_path q).map FlowNode.core = (t.resolve_path q).map FlowNode.core := by
  intro p
  induction p with
  | nil =>
    intro t t' h
    simp only [FlowNode.updateAt, Option.some.injEq] at h
    subst h
    constructor
    · exact ⟨t, rfl, rfl⟩
    · intro q hq
      cases q with
      | nil => exact absurd rfl hq
      | cons y r =>
        have : (f t).resolve_path (y :: r) = t.resolve_path (y :: r) := by
          simp only [FlowNode.resolve_path, FlowNode.childGet, hch t]
        rw [this]
  | cons x p' ih =>
    intro t t' h
    simp only [FlowNode.updateAt, Option.map_eq_some'] at h
    obtain ⟨cs', hup, ht'⟩ := h
    obtain ⟨d, d', h1, h2, h3, h4⟩ :=
      updateChild_spec x (FlowNode.updateAt f p') (updateAt_pres_name f hname p') t.children cs' hup
    obtain ⟨⟨n, hn1, hn2⟩, hother⟩ := ih d d' h2
    constructor
    · refine ⟨n, ?_, ?_⟩
      · simp only [FlowNode.resolve_path, FlowNode.childGet, h1]
        exact hn1
      · subst ht'
        simp only [FlowNode.resolve_path, FlowNode.childGet, FlowNode.children_mk, h3]
        exact hn2
    · intro q hq
      subst ht'
      cases q with
      | nil => simp [FlowNode.resolve_path]
      | cons y r =>
        by_cases hxy : y = x
        · subst hxy
          have hr : r ≠ p' := by
            intro hr; exact hq (by rw [hr])
          simp only [FlowNode.resolve_path, FlowNode.childGet, FlowNode.children_mk, h3, h1]
          exact hother r hr
        · simp only [FlowNode.resolve_path, FlowNode.childGet, FlowNode.children_mk,
            h4 y hxy]

/-- `updateAt` never changes the `expanded` flag of any node when the
applied function keeps it (plus names and children). -/
theorem updateAt_pres_expanded (f : FlowNode → FlowNode)
    (hname : ∀ m, (f m).core.name = m.core.name)
    (hch : ∀ m, (f m).children = m.children)
    (hexp : ∀ m, (f m).core.expanded = m.core.expanded) :
    ∀ (p : List String) (t t' : FlowNode),
      FlowNode.updateAt f p t = some t' →
      ∀ q, (t'.resolve_path q).map (fun m => m.core.expanded)
        = (t.resolve_path q).map (fun m => m.core.expanded) := by
  intro p t t' h q
  obtain ⟨⟨n, hn1, hn2⟩, hother⟩ := updateAt_some_spec f hname hch p t t' h
  by_cases hq : q = p
  · subst hq
    rw [hn1, hn2]
    simp [hexp n]
  · have := hother q hq
    cases h1 : t'.resolve_path q with
    | none => rw [h1] at this; cases h2 : t.resolve_path q with
      | none => rfl
      | some m => rw [h2] at this; simp at this
    | some m' => rw [h1] at this; cases h2 : t.resolve_path q with
      | none => rw [h2] at this; simp at this
      | some m =>
        rw [h2] at this
        simp only [Option.map_some', Option.some.injEq] at this
        simp [this]

theorem resolve_path_append : ∀ (p q : List String) (t : FlowNode),
    t.resolve_path (p ++ q)
      = match t.resolve_path p with
        | none => none
        | some m => m.resolve_path q := by
  intro p
  induction p with
  | nil => intro q t; simp [FlowNode.resolve_path]
  | cons x p' ih =>
    intro q t
    simp only [List.cons_append, FlowNode.resolve_path]
    cases t.childGet x with
    | none => rfl
    | some d => exact ih q d

theorem addAt_pres_name (cname : String) (st : FlowStatus) :
    ∀ (p : List String) (d d' : FlowNode),
      FlowNode.addAt cname st p d = some d' → d'.core.name = d.core.name := by
  intro p d d' h
  cases p with
  | nil =>
    simp only [FlowNode.addAt, Option.some.injEq] at h
    simp [← h]
  | cons x p' =>
    simp only [FlowNode.addAt, Option.map_eq_some'] at h
    obtain ⟨cs', _, hd'⟩ := h
    simp [← hd']

/-- Master lemma for `FlowNode.addAt`: a successful add (1) rewrites the
target node by upserting the new child and or-ing its `expanded` flag
with the expanded-status test; (2) or-es the `expanded` flag of every
node along the path (the `set_expanded_recursively` propagation) while
keeping the rest of their cores; (3) leaves every node off the path and
distinct from the (possibly replaced) child untouched. -/
theorem addAt_spec (cname : String) (st : FlowStatus) :
    ∀ (p : List String) (t t' : FlowNode),
      FlowNode.addAt cname st p t = some t' →
      (∃ n, t.resolve_path p = some n
        ∧ t'.resolve_path p = some (.mk
            { n.core with expanded := n.core.expanded || decide (st ∈ EXPANDED_STATUSES) }
            (upsertChild n.children (newChild cname st))))
      ∧ (∀ q qr, p = q ++ qr →
          ∃ m m', t.resolve_path q = some m ∧ t'.resolve_path q = some m'
            ∧ m'.core = { m.core with
                expanded := m.core.expanded || decide (st ∈ EXPANDED_STATUSES) })
      ∧ (∀ q, (∀ r, p ≠ q ++ r) → (∀ r, q ≠ p ++ cname :: r) →
          t'.resolve_path q = t.resolve_path q) := by
  intro p
  induction p with
  | nil =>
    intro t t' h
    simp only [FlowNode.addAt, Option.some.injEq] at h
    subst h
    refine ⟨⟨t, rfl, rfl⟩, ?_, ?_⟩
    · intro q qr hqr
      obtain ⟨hq, hqr⟩ := List.append_eq_nil.mp hqr.symm
      subst hq
      exact ⟨t, _, rfl, rfl, rfl⟩
    · intro q h1 h2
      cases q with
      | nil => exact (h1 [] (by simp)).elim
      | cons y r' =>
        have hy : y ≠ cname := by
          intro he
          subst he
          exact h2 r' rfl
        have hy' : y ≠ (newChild cname st).name := by
          simpa [newChild, FlowNode.name] using hy
        simp only [FlowNode.resolve_path, FlowNode.childGet, FlowNode.children_mk,
          find_upsertChild_other t.children (newChild cname st) y hy']
  | cons x p' ih =>
    intro t t' h
    simp only [FlowNode.addAt, Option.map_eq_some'] at h
    obtain ⟨cs', hup, ht'⟩ := h
    obtain ⟨d, d', h1, h2, h3, h4⟩ :=
      updateChild_spec x (FlowNode.addAt cname st p') (addAt_pres_name cname st p')
        t.children cs' hup
    obtain ⟨hA, hB, hC⟩ := ih d d' h2
    subst ht'
    refine ⟨?_, ?_, ?_⟩
    · obtain ⟨n, hn1, hn2⟩ := hA
      refine ⟨n, ?_, ?_⟩
      · simp only [FlowNode.resolve_path, FlowNode.childGet, h1]
        exact hn1
      · simp only [FlowNode.resolve_path, FlowNode.childGet, FlowNode.children_mk, h3]
        exact hn2
    · intro q qr hqr
      cases q with
      | nil =>
        refine ⟨t, _, rfl, rfl, rfl⟩
      | cons y q' =>
        have hyx : y = x ∧ q' ++ qr = p' := by
          have := hqr
          simp only [List.cons_append, List.cons.injEq] at this
          exact ⟨this.1.symm, this.2.symm⟩
        obtain ⟨hyx, hq'⟩ := hyx
        subst hyx
        obtain ⟨m, m', hm1, hm2, hm3⟩ := hB q' qr hq'.symm
        refine ⟨m, m', ?_, ?_, hm3⟩
        · simp only [FlowNode.resolve_path, FlowNode.childGet, h1]
          exact hm1
        · simp only [FlowNode.resolve_path, FlowNode.childGet, FlowNode.children_mk, h3]
          exact hm2
    · intro q hq1 hq2
      cases q with
      | nil => exact (hq1 (x :: p') (by simp)).elim
      | cons y r' =>
        by_cases hxy : y = x
        · subst hxy
          have hr1 : ∀ r, p' ≠ r' ++ r := by
            intro r he
            exact hq1 r (by simp [he])
          have hr2 : ∀ r, r' ≠ p' ++ cname :: r := by
            intro r he
            exact hq2 r (by simp [he])
          simp only [FlowNode.resolve_path, FlowNode.childGet, FlowNode.children_mk, h3, h1]
          exact hC r' hr1 hr2
        · simp only [FlowNode.resolve_path, FlowNode.childGet, FlowNode.children_mk,
            h4 y hxy]

/-- The freshly added child sits at `p ++ [cname]` and is exactly
`newChild cname st`. -/
theorem addAt_child (cname : String) (st : FlowStatus)
    (p : List String) (t t' : FlowNode)
    (h : FlowNode.addAt cname st p t = some t') :
    t'.resolve_path (p ++ [cname]) = some (newChild cname st) := by
  obtain ⟨⟨n, _, hn2⟩, _, _⟩ := addAt_spec cname st p t t' h
  rw [resolve_path_append, hn2]
  have hf := find_upsertChild_self n.children (newChild cname st)
  have hnm : (newChild cname st).name = cname := rfl
  rw [hnm] at hf
  simp only [FlowNode.resolve_path, FlowNode.childGet, FlowNode.children_mk]
  rw [hf]

theorem updateChild_id : ∀ (cs : List FlowNode) (x : String)
    (g : FlowNode → Option FlowNode) (cs' : List FlowNode),
    updateChild cs x g = some cs' →
    (∀ d, cs.find? (fun c => c.name == x) = some d → g d = some d) → cs' = cs := by
  intro cs
  induction cs with
  | nil => intro x g cs' h _; simp [updateChild] at h
  | cons d ds ih =>
    intro x g cs' h hid
    by_cases hd : (d.name == x) = true
    · simp only [updateChild, hd, if_true, Option.map_eq_some'] at h
      obtain ⟨e, hge, hcs'⟩ := h
      have : g d = some d := hid d (by simp [List.find?_cons, hd])
      rw [this] at hge
      cases hge
      exact hcs'.symm
    · have hd' : (d.name == x) = false := by simpa using hd
      simp only [updateChild, hd', Bool.false_eq_true, if_false, Option.map_eq_some'] at h
      obtain ⟨ds', hds', hcs'⟩ := h
      have := ih x g ds' hds' (fun e he => hid e (by simp [List.find?_cons, hd', he]))
      rw [← hcs', this]

theorem updateAt_id (f : FlowNode → FlowNode) :
    ∀ (p : List String) (t t' : FlowNode),
      FlowNode.updateAt f p t = some t' →
      (∀ m, t.resolve_path p = some m → f m = m) → t' = t := by
  intro p
  induction p with
  | nil =>
    intro t t' h hid
    simp only [FlowNode.updateAt, Option.some.injEq] at h
    rw [← h, hid t rfl]
  | cons x p' ih =>
    intro t t' h hid
    simp only [FlowNode.updateAt, Option.map_eq_some'] at h
    obtain ⟨cs', hup, ht'⟩ := h
    have hkey : ∀ d, t.children.find? (fun c => c.name == x) = some d →
        FlowNode.updateAt f p' d = some d := by
      intro d hd
      cases hu : FlowNode.updateAt f p' d with
      | none =>
        have hnone : updateChild t.children x (FlowNode.updateAt f p') = none := by
          apply (updateChild_none_iff _ _ _).mpr
          intro e he
          rw [hd] at he
          cases he
          exact hu
        rw [hnone] at hup
        cases hup
      | some e =>
        have : e = d := by
          apply ih d e hu
          intro m hm
          apply hid m
          simp only [FlowNode.resolve_path, FlowNode.childGet, hd]
          exact hm
        rw [this]
    have := updateChild_id t.children x (FlowNode.updateAt f p') cs' hup hkey
    rw [← ht', this]
    cases t with
    | mk c cs => rfl

/-- C9 counterexample: on a node with children `a` (COMPLETE) and `b`,
`add("a", ACTIVE)` does not append a third child after the existing ones
and does not leave the existing child `a` in place — the OrderedDict
assignment replaces it at its original position. -/
theorem claim_C9_counterexample :
    ((FlowNode.addAt "a" FlowStatus.ACTIVE [] c9tree).map
        (fun t => (t.children.map FlowNode.name, t.children.map FlowNode.status)))
      = some (["a", "b"], [FlowStatus.ACTIVE, FlowStatus.COMPLETE])
    ∧ c9tree.children.map FlowNode.name = ["a", "b"]
    ∧ c9tree.children.map FlowNode.status
        = [FlowStatus.COMPLETE, FlowStatus.COMPLETE] :=
  ⟨rfl, rfl, rfl⟩

/-- C9 (amended): `add(name, status)` appends the new child after the
existing children exactly when no sibling already carries that name;
when one does, that sibling is replaced in place by the new node (its
position kept, the old node discarded); sibling names stay unique. -/
theorem claim_C9 (n : FlowNode) (cname : String) (st : FlowStatus) :
    ∃ t, FlowNode.addAt cname st [] n = some t
      ∧ (cname ∉ n.children.map FlowNode.name →
          t.children = n.children ++ [newChild cname st])
      ∧ (cname ∈ n.children.map FlowNode.name →
          t.children.map FlowNode.name = n.children.map FlowNode.name)
      ∧ t.childGet cname = some (newChild cname st)
      ∧ ((n.children.map FlowNode.name).Nodup →
          (t.children.map FlowNode.name).Nodup) := by
  have hnm : (newChild cname st).name = cname := rfl
  refine ⟨_, rfl, ?_, ?_, ?_, ?_⟩
  · intro h
    simpa using upsertChild_of_not_mem n.children (newChild cname st) (by rw [hnm]; exact h)
  · intro h
    simpa using upsertChild_names_of_mem n.children (newChild cname st) (by rw [hnm]; exact h)
  · have hf := find_upsertChild_self n.children (newChild cname st)
    rw [hnm] at hf
    simpa [FlowNode.childGet] using hf
  · intro h
    simpa using upsertChild_names_nodup n.children (newChild cname st) h

/-- Witness for C9: appending a genuinely new child name. -/
theorem claim_C9_witness :
    ∃ t, FlowNode.addAt "c" FlowStatus.ACTIVE [] c9tree = some t
      ∧ t.children = c9tree.children ++ [newChild "c" FlowStatus.ACTIVE] := by
  obtain ⟨t, h1, h2, _, _, _⟩ := claim_C9 c9tree "c" FlowStatus.ACTIVE
  exact ⟨t, h1, h2 (by decide)⟩

/-- C2 counterexample: a child added with status `UNKNOWN` is *not*
expanded — `FlowNode.EXPANDED_STATUSES` does not contain `UNKNOWN`,
contrary to the claimed set {ACTIVE, ABORTED, SUBMITTED, UNKNOWN}. -/
theorem claim_C2_counterexample :
    ((FlowNode.addAt "c" FlowStatus.UNKNOWN [] (mkRootTree "r" FlowStatus.COMPLETE)).bind
        (fun t => t.resolve_path ["c"])).map FlowNode.expanded = some false
    ∧ decide (FlowStatus.UNKNOWN ∈ EXPANDED_STATUSES) = false :=
  ⟨rfl, rfl⟩

/-- C2 (amended): the newly created child's `expanded` flag is true
exactly when the status lies in {ACTIVE, ABORTED, SUBMITTED} (the
source's `EXPANDED_STATUSES`, which does not include UNKNOWN), and each
ancestor's flag becomes its old flag or-ed with that same membership
test. -/
theorem claim_C2 (t : FlowNode) (p : List String) (cname : String)
    (st : FlowStatus) (t' : FlowNode)
    (h : FlowNode.addAt cname st p t = some t') :
    (t'.resolve_path (p ++ [cname])).map FlowNode.expanded
        = some (decide (st ∈ EXPANDED_STATUSES))
    ∧ ∀ q qr, p = q ++ qr →
        ∃ m m', t.resolve_path q = some m ∧ t'.resolve_path q = some m'
          ∧ m'.expanded = (m.expanded || decide (st ∈ EXPANDED_STATUSES)) := by
  constructor
  · rw [addAt_child cname st p t t' h]
    rfl
  · intro q qr hqr
    obtain ⟨_, hB, _⟩ := addAt_spec cname st p t t' h
    obtain ⟨m, m', h1, h2, h3⟩ := hB q qr hqr
    refine ⟨m, m', h1, h2, ?_⟩
    show m'.core.expanded = (m.core.expanded || decide (st ∈ EXPANDED_STATUSES))
    rw [h3]

/-- Witness for C2 at a concrete add (an `ABORTED` child under `a`). -/
theorem claim_C2_witness :
    ∃ t', FlowNode.addAt "z" FlowStatus.ABORTED ["a"] c9tree = some t'
      ∧ (t'.resolve_path (["a"] ++ ["z"])).map FlowNode.expanded
          = some (decide (FlowStatus.ABORTED ∈ EXPANDED_STATUSES)) := by
  cases ht : FlowNode.addAt "z" FlowStatus.ABORTED ["a"] c9tree with
  | none => exact absurd (congrArg Option.isSome ht) (by decide)
  | some t' => exact ⟨t', rfl, (claim_C2 c9tree ["a"] "z" FlowStatus.ABORTED t' ht).1⟩

/-- C1 counterexample: a stored fold override `(false, ACTIVE)` on a node
whose status changed to `QUEUED` is *applied* by the code (because
`QUEUED ∉ EXPANDED_STATUSES`), while the claim demands that it be
dropped (override false and status changed). -/
theorem claim_C1_counterexample :
    ((c1tree.ingest_user_expanded [(["a"], (false, FlowStatus.ACTIVE))]).resolve_path
        ["a"]).map FlowNode.user_expanded
      = some (some (false, FlowStatus.QUEUED))
    ∧ (c1tree.resolve_path ["a"]).map FlowNode.user_expanded = some none
    ∧ (c1tree.resolve_path ["a"]).map FlowNode.status = some FlowStatus.QUEUED :=
  ⟨rfl, rfl, rfl⟩

/-- C1 (amended): `ingest_user_expanded` applies a stored override
`(v, s)` to the node resolved at the path exactly when `v` is true, or
the node's current status equals `s`, or the node's current status is
not in `EXPANDED_STATUSES`; in every other case the entry is dropped and
the tree is unchanged.  The applied override is re-pinned to the node's
current status, and no other node's scalar state changes. -/
theorem claim_C1 (t : FlowNode) (p : List String) (v : Bool) (s : FlowStatus) :
    (t.resolve_path p = none → t.ingest_user_expanded [(p, (v, s))] = t)
    ∧ ∀ n, t.resolve_path p = some n →
        ((v = true ∨ n.status = s ∨ n.status ∉ EXPANDED_STATUSES →
          (t.ingest_user_expanded [(p, (v, s))]).resolve_path p
              = some (n.setUserExpanded v)
          ∧ ∀ q, q ≠ p →
              ((t.ingest_user_expanded [(p, (v, s))]).resolve_path q).map FlowNode.core
                = (t.resolve_path q).map FlowNode.core)
        ∧ (v = false → n.status ≠ s → n.status ∈ EXPANDED_STATUSES →
            t.ingest_user_expanded [(p, (v, s))] = t)) := by
  have hfold : t.ingest_user_expanded [(p, (v, s))]
      = (FlowNode.updateAt (userExpandedKeep (v, s)) p t).getD t := by
    simp [FlowNode.ingest_user_expanded]
  have hname : ∀ m, (userExpandedKeep (v, s) m).core.name = m.core.name := by
    intro m
    unfold userExpandedKeep
    by_cases h : (v, s).1 || decide (m.status = (v, s).2)
        || !decide (m.status ∈ EXPANDED_STATUSES)
    · simp [h, FlowNode.setUserExpanded]
    · simp [h]
  have hch : ∀ m, (userExpandedKeep (v, s) m).children = m.children := by
    intro m
    unfold userExpandedKeep
    by_cases h : (v, s).1 || decide (m.status = (v, s).2)
        || !decide (m.status ∈ EXPANDED_STATUSES)
    · simp [h, FlowNode.setUserExpanded]
    · simp [h]
  constructor
  · intro hnone
    rw [hfold, (updateAt_eq_none (userExpandedKeep (v, s)) p t).mpr hnone]
    rfl
  · intro n hn
    cases hu : FlowNode.updateAt (userExpandedKeep (v, s)) p t with
    | none =>
      rw [(updateAt_eq_none _ p t).mp hu] at hn
      cases hn
    | some t'' =>
      constructor
      · intro hcond
        have hkeep : userExpandedKeep (v, s) n = n.setUserExpanded v := by
          unfold userExpandedKeep
          have : ((v, s).1 || decide (n.status = (v, s).2)
              || !decide (n.status ∈ EXPANDED_STATUSES)) = true := by
            rcases hcond with h | h | h
            · simp [h]
            · simp [h]
            · simp [h]
          rw [if_pos this]
        obtain ⟨⟨m, hm1, hm2⟩, hother⟩ :=
          updateAt_some_spec (userExpandedKeep (v, s)) hname hch p t t'' hu
        rw [hn] at hm1
        cases hm1
        constructor
        · rw [hfold, hu]
          simpa [hkeep] using hm2
        · intro q hq
          rw [hfold, hu]
          exact hother q hq
      · intro hv hs hmem
        have hid : userExpandedKeep (v, s) n = n := by
          unfold userExpandedKeep
          have : ((v, s).1 || decide (n.status = (v, s).2)
              || !decide (n.status ∈ EXPANDED_STATUSES)) = false := by
            subst hv
            simp [hs, hmem]
          rw [if_neg (by simp [this])]
        have := updateAt_id (userExpandedKeep (v, s)) p t t'' hu
          (fun m hm => by rw [hn] at hm; cases hm; exact hid)
        rw [hfold, hu]
        simpa using this

/-- Witness for C1: a sticky unfold override (`v = true`) survives a
status change and is re-pinned to the node's current status. -/
theorem claim_C1_witness :
    (c1tree.ingest_user_expanded [(["a"], (true, FlowStatus.ACTIVE))]).resolve_path ["a"]
      = some ((newChild "a" FlowStatus.QUEUED).setUserExpanded true) := by
  have h := (claim_C1 c1tree ["a"] true FlowStatus.ACTIVE).2
    (newChild "a" FlowStatus.QUEUED) rfl
  exact (h.1 (Or.inl rfl)).1

/-- C3: `ingest_focused` focuses the node resolved from the old focused
path exactly when the new tree's blink-path set is included in the old
one and the path resolves; otherwise the root (whose focus starts unset
on construction) is returned unchanged.  The tree itself is never
modified. -/
theorem claim_C3 (r : RootFlowNode) (fp : List String) (bps : List (List String)) :
    (subsetPaths r.tree.blink_paths bps = true →
      (∀ n, r.tree.resolve_path fp = some n →
        (r.ingest_focused fp bps).focused = some fp
        ∧ (r.ingest_focused fp bps).tree = r.tree)
      ∧ (r.tree.resolve_path fp = none → r.ingest_focused fp bps = r))
    ∧ (subsetPaths r.tree.blink_paths bps = false → r.ingest_focused fp bps = r)
    ∧ ∀ nm st now, (mkRootFlowNode nm st now).focused = none := by
  unfold RootFlowNode.ingest_focused
  refine ⟨?_, ?_, ?_⟩
  · intro hsub
    constructor
    · intro n hn
      rw [if_pos hsub, hn]
      exact ⟨rfl, rfl⟩
    · intro hn
      rw [if_pos hsub, hn]
  · intro hsub
    rw [if_neg (by simp [hsub])]
  · intro nm st now
    rfl

/-- Witness for C3: on a tree with no blinking leaf, the previous focus
path `a` resolves and is kept. -/
theorem claim_C3_witness :
    subsetPaths c3root.tree.blink_paths [] = true
    ∧ (c3root.ingest_focused ["a"] []).focused = some ["a"] := by
  have h := (claim_C3 c3root ["a"] []).1 (by decide)
  exact ⟨by decide, (h.1 (newChild "a" FlowStatus.QUEUED) rfl).1⟩

/-- C6: `tree_roots` fetches only on first access and raises exactly
when the (fetched or cached) roots container has no children;
`full_status` raises exactly when the path is not among the tree roots'
children, and otherwise returns the cached subtree, fetching only on a
cache miss. -/
theorem claim_C6 (s : FlowIfaceState) (FR : RootFlowNode)
    (FS : String → RootFlowNode) (p : String) :
    ((match s.tree_roots with
      | none => FR
      | some tr => tr).tree.children.isEmpty = true →
      ∃ e, tree_roots_acc s FR = .error e)
    ∧ (s.tree_roots = none → FR.tree.children.isEmpty = false →
        tree_roots_acc s FR = .ok (FR, { s with tree_roots := some FR }, true))
    ∧ (∀ tr0, s.tree_roots = some tr0 → tr0.tree.children.isEmpty = false →
        tree_roots_acc s FR = .ok (tr0, s, false))
    ∧ ∀ tr s1 b, tree_roots_acc s FR = .ok (tr, s1, b) →
        (tr.tree.childGet p = none → ∃ e, full_status s FR FS p = .error e)
        ∧ ∀ c, tr.tree.childGet p = some c →
            (∀ cached, lookupA s1.full_statuses p = some cached →
              full_status s FR FS p = .ok (cached, s1, false))
            ∧ (lookupA s1.full_statuses p = none →
              full_status s FR FS p
                = .ok (FS p,
                    { s1 with full_statuses := upsertA s1.full_statuses p (FS p) },
                    true)) := by
  refine ⟨?_, ?_, ?_, ?_⟩
  · intro hemp
    unfold tree_roots_acc
    cases hs : s.tree_roots with
    | none =>
      rw [hs] at hemp
      exact ⟨"Connexion to the server failed or suite does not exists/is empty",
        by simp [hemp]⟩
    | some tr0 =>
      rw [hs] at hemp
      exact ⟨"Connexion to the server failed or suite does not exists/is empty",
        by simp [hemp]⟩
  · intro hs hne
    unfold tree_roots_acc
    rw [hs]
    simp [hne]
  · intro tr0 hs hne
    unfold tree_roots_acc
    rw [hs]
    simp [hne]
  · intro tr s1 b htr
    constructor
    · intro hchild
      unfold full_status
      rw [htr]
      exact ⟨"The path base node is not in the tree roots list.",
        by simp [hchild]⟩
    · intro c hchild
      constructor
      · intro cached hcache
        unfold full_status
        rw [htr]
        simp [hchild, hcache]
      · intro hcache
        unfold full_status
        rw [htr]
        simp [hchild, hcache]

/-- Witness for C6: cached roots holding `A157`, whose status is cached
(hit returns the cached object without fetching), and the empty-roots
error. -/
theorem claim_C6_witness :
    full_status c6state c6empty (fun _ => c5new) "A157" = .ok (c5old, c6state, false)
    ∧ ∃ e, tree_roots_acc { tree_roots := some c6empty, full_statuses := [] } c6roots
        = .error e := by
  constructor
  · have h := (claim_C6 c6state c6empty (fun _ => c5new) "A157").2.2.2
      c6roots c6state false (by rfl)
    exact ((h.2 (newChild "A157" FlowStatus.ABORTED) rfl).1 c5old rfl)
  · exact (claim_C6 { tree_roots := some c6empty, full_statuses := [] } c6roots
      (fun _ => c5new) "A157").1 (by rfl)

/-- C5: when the freshly retrieved tree is structurally equal
(`FlowNode.__eq__`) to the cached one, `_set_full_status` keeps the
cached object (same tree, same focus, every flagged path and
user-expanded override untouched), only resets its age via `touch`, and
does not notify; the focus/flagged/user-expanded ingest chain and the
notification run only when the trees differ. -/
theorem claim_C5 (s : FlowIfaceState) (path : String) (old value : RootFlowNode)
    (now : Nat) (hold : lookupA s.full_statuses path = some old) :
    (rootFeq value old = true →
      set_full_status s path value now
        = .ok ({ s with
            full_statuses := upsertA s.full_statuses path (old.touch now) }, false)
      ∧ (old.touch now).tree = old.tree
      ∧ (old.touch now).focused = old.focused
      ∧ (old.touch now).c_time = now)
    ∧ (rootFeq value old = false →
        (∀ s' b, set_full_status s path value now = .ok (s', b) → b = true)
        ∧ ∀ fp, old.focused = some fp →
          set_full_status s path value now
            = .ok ({ s with
                full_statuses := upsertA s.full_statuses path
                  (ingestAll value old fp) }, true)) := by
  simp only [set_full_status, hold]
  constructor
  · intro he
    rw [if_pos he]
    exact ⟨rfl, rfl, rfl, rfl⟩
  · intro he
    constructor
    · intro s' b h
      rw [if_neg (by simp [he])] at h
      cases hf : old.focused with
      | none => rw [hf] at h; cases h
      | some fp =>
        rw [hf] at h
        cases h
        rfl
    · intro fp hf
      rw [if_neg (by simp [he]), hf]

/-- Witness for C5: re-ingesting a structurally identical tree merely
touches the cached entry and does not notify. -/
theorem claim_C5_witness :
    rootFeq c5new c5old = true
    ∧ set_full_status c5state "A157" c5new 9
        = .ok ({ c5state with
            full_statuses := upsertA c5state.full_statuses "A157" (c5old.touch 9) },
          false) := by
  have h := (claim_C5 c5state "A157" c5old c5new 9 rfl).1 (by decide)
  exact ⟨by decide, h.1⟩

/-- C8 counterexample: a touched `limit` record whose value is
`"xreset"` — not the `"reset"` sentinel — is nevertheless submitted as a
reset-only command (no `alter -M`), because the code tests
`value.endswith("reset")` rather than equality with the sentinel. -/
theorem claim_C8_counterexample :
    c8limitRec.touched = true
    ∧ c8limitRec.value = some "xreset"
    ∧ ("xreset" = "reset" → False)
    ∧ save_node_info "/groucho/A157" [c8limitRec]
        = .ok (some ["reset /groucho/A157:lim1"]) := by
  exact ⟨rfl, rfl, by decide, rfl⟩

/-- C8 (amended): `save_node_info` submits nothing (`None`) when no
record is touched; a touched record is translated by kind —
`flowspecific/MaxTries` to `alter -v … SMSTRIES n` (or `alter -r -v`
when the value is falsy), `limit` to `alter -M` followed by `reset`, or
`reset` alone when the supplied value merely *ends with* `"reset"` (in
particular the `"reset"` sentinel), `meter` to `alter -m`, `repeat` to
`alter -R`; any other touched kind raises `NotImplementedError`.
Command generation distributes over list concatenation. -/
theorem claim_C8 (p : String) (info : List ExtraFlowNodeInfo)
    (r : ExtraFlowNodeInfo) (hr : r.touched = true) :
    (info.filter ExtraFlowNodeInfo.touched = [] → save_node_info p info = .ok none)
    ∧ (r.kind = "flowspecific" → r.name = "MaxTries" →
        save_node_info p [r] = .ok (some
          (if pyTruthy r.value = true then
            ["alter -v " ++ p ++ " SMSTRIES " ++ pyStr r.value]
          else ["alter -r -v " ++ p ++ " SMSTRIES"])))
    ∧ (∀ v, r.kind = "limit" → r.value = some v →
        save_node_info p [r] = .ok (some
          ((if pyEndsWith v "reset" = true then []
            else ["alter -M " ++ p ++ ":" ++ r.name ++ " " ++ v])
            ++ ["reset " ++ p ++ ":" ++ r.name])))
    ∧ (r.kind = "meter" →
        save_node_info p [r]
          = .ok (some ["alter -m " ++ p ++ ":" ++ r.name ++ " " ++ pyStr r.value]))
    ∧ (r.kind = "repeat" →
        save_node_info p [r]
          = .ok (some ["alter -R " ++ p ++ ":" ++ r.name ++ " " ++ pyStr r.value]))
    ∧ (¬(r.kind = "flowspecific" ∧ r.name = "MaxTries") → r.kind ≠ "limit" →
        r.kind ≠ "meter" → r.kind ≠ "repeat" →
        save_node_info p [r] = .error "NotImplementedError")
    ∧ ∀ l1 l2, actual_save_node_info p (l1 ++ l2)
        = (actual_save_node_info p l1).bind
            (fun c1 => (actual_save_node_info p l2).map (fun c2 => c1 ++ c2)) := by
  refine ⟨?_, ?_, ?_, ?_, ?_, ?_, ?_⟩
  · intro h
    simp [save_node_info, h]
  · intro hk hn
    by_cases hv : pyTruthy r.value = true
    · simp [save_node_info, actual_save_node_info, saveCmdsFor, Except.map, hr, hk, hn, hv]
    · simp only [Bool.not_eq_true] at hv
      simp [save_node_info, actual_save_node_info, saveCmdsFor, Except.map, hr, hk, hn, hv]
  · intro v hk hv
    by_cases he : pyEndsWith v "reset" = true
    · simp [save_node_info, actual_save_node_info, saveCmdsFor, Except.map, hr, hk, hv, he]
    · simp only [Bool.not_eq_true] at he
      simp [save_node_info, actual_save_node_info, saveCmdsFor, Except.map, hr, hk, hv, he]
  · intro hk
    simp [save_node_info, actual_save_node_info, saveCmdsFor, Except.map, hr, hk]
  · intro hk
    simp [save_node_info, actual_save_node_info, saveCmdsFor, Except.map, hr, hk]
  · intro hmt hlim hmet hrep
    have h1 : (r.kind == "flowspecific" && r.name == "MaxTries") = false := by
      by_cases hk : r.kind = "flowspecific"
      · have hn : ¬r.name = "MaxTries" := fun hn => hmt ⟨hk, hn⟩
        simp [hk, hn]
      · simp [hk]
    simp [save_node_info, actual_save_node_info, saveCmdsFor, Except.map, hr, h1, hlim, hmet, hrep]
  · intro l1
    induction l1 with
    | nil =>
      intro l2
      cases h : actual_save_node_info p l2 with
      | error e => simp [actual_save_node_info, h, Except.bind, Except.map]
      | ok m2 => simp [actual_save_node_info, h, Except.bind, Except.map]
    | cons a l1 ih =>
      intro l2
      cases hA : saveCmdsFor p a with
      | error e => simp [actual_save_node_info, hA, Except.bind]
      | ok cmds =>
        cases hB : actual_save_node_info p l1 with
        | error e =>
          cases hC : actual_save_node_info p l2 with
          | error e2 =>
            simp [actual_save_node_info, hA, hB, hC, ih l2, Except.bind, Except.map]
          | ok m2 =>
            simp [actual_save_node_info, hA, hB, hC, ih l2, Except.bind, Except.map]
        | ok more =>
          cases hC : actual_save_node_info p l2 with
          | error e2 =>
            simp [actual_save_node_info, hA, hB, hC, ih l2, Except.bind, Except.map]
          | ok m2 =>
            simp [actual_save_node_info, hA, hB, hC, ih l2, Except.bind, Except.map]

/-- Witness for C8: a touched meter record generates exactly its
`alter -m` command; an untouched list submits nothing. -/
theorem claim_C8_witness :
    save_node_info "/groucho/A157"
        [{ kind := "meter", name := "work", initial_value := some "3",
           edited_value := some "4", description := "", editable := true }]
      = .ok (some ["alter -m " ++ "/groucho/A157" ++ ":" ++ "work" ++ " " ++ "4"])
    ∧ save_node_info "/groucho/A157"
        [{ kind := "meter", name := "work", initial_value := some "3",
           edited_value := none, description := "", editable := true }]
      = .ok none := by
  constructor
  · exact (claim_C8 "/groucho/A157" []
      { kind := "meter", name := "work", initial_value := some "3",
        edited_value := some "4", description := "", editable := true }
      (by decide)).2.2.2.1 rfl
  · exact (claim_C8 "/groucho/A157"
      [{ kind := "meter", name := "work", initial_value := some "3",
         edited_value := none, description := "", editable := true }]
      c8limitRec (by decide)).1 (by decide)

theorem listSplit (p q : List String) :
    (∃ r, q = p ++ r) ∨ (∃ r, p = q ++ r)
    ∨ (∃ s a b r1 r2, a ≠ b ∧ p = s ++ a :: r1 ∧ q = s ++ b :: r2) := by
  induction p generalizing q with
  | nil => exact Or.inl ⟨q, rfl⟩
  | cons x p' ih =>
    cases q with
    | nil => exact Or.inr (Or.inl ⟨x :: p', rfl⟩)
    | cons y q' =>
      by_cases hxy : x = y
      · subst hxy
        rcases ih q' with ⟨r, hr⟩ | ⟨r, hr⟩ | ⟨s, a, b, r1, r2, hab, h1, h2⟩
        · exact Or.inl ⟨r, by rw [hr]; rfl⟩
        · exact Or.inr (Or.inl ⟨r, by rw [hr]; rfl⟩)
        · exact Or.inr (Or.inr ⟨x :: s, a, b, r1, r2, hab,
            by rw [h1]; rfl, by rw [h2]; rfl⟩)
      · exact Or.inr (Or.inr ⟨[], x, y, p', q', hxy, rfl, rfl⟩)

theorem seAlong_pres_name :
    ∀ (p : List String) (d d' : FlowNode),
      FlowNode.set_expanded_along p d = some d' → d'.core.name = d.core.name := by
  intro p d d' h
  cases p with
  | nil =>
    simp only [FlowNode.set_expanded_along, Option.some.injEq] at h
    simp [← h]
  | cons x p' =>
    simp only [FlowNode.set_expanded_along, Option.map_eq_some'] at h
    obtain ⟨cs', _, hd'⟩ := h
    simp [← hd']

theorem seAlong_mono :
    ∀ (p : List String) (t t' : FlowNode),
      FlowNode.set_expanded_along p t = some t' →
      ∀ q m m', t.resolve_path q = some m → t'.resolve_path q = some m' →
        m.expanded = true → m'.expanded = true := by
  intro p
  induction p with
  | nil =>
    intro t t' h q m m' hm hm' _
    simp only [FlowNode.set_expanded_along, Option.some.injEq] at h
    subst h
    cases q with
    | nil =>
      cases hm'
      rfl
    | cons y r =>
      simp only [FlowNode.resolve_path, FlowNode.childGet, FlowNode.children_mk] at hm'
      simp only [FlowNode.resolve_path, FlowNode.childGet] at hm
      rw [hm] at hm'
      cases hm'
      assumption
  | cons x p' ih =>
    intro t t' h q m m' hm hm' hexp
    simp only [FlowNode.set_expanded_along, Option.map_eq_some'] at h
    obtain ⟨cs', hup, ht'⟩ := h
    obtain ⟨d, d', h1, h2, h3, h4⟩ :=
      updateChild_spec x (FlowNode.set_expanded_along p') (seAlong_pres_name p')
        t.children cs' hup
    subst ht'
    cases q with
    | nil =>
      cases hm'
      rfl
    | cons y r =>
      simp only [FlowNode.resolve_path, FlowNode.childGet, FlowNode.children_mk] at hm hm'
      by_cases hxy : y = x
      · subst hxy
        rw [h1] at hm
        rw [h3] at hm'
        exact ih d d' h2 r m m' hm hm' hexp
      · rw [h4 y hxy] at hm'
        rw [hm] at hm'
        cases hm'
        exact hexp

theorem addAt_mono (cname : String) (st : FlowStatus) (p : List String)
    (t t' : FlowNode) (h : FlowNode.addAt cname st p t = some t') :
    ∀ q, (∀ r, q ≠ p ++ cname :: r) →
      ∀ m m', t.resolve_path q = some m → t'.resolve_path q = some m' →
        m.expanded = true → m'.expanded = true := by
  intro q hq m m' hm hm' hexp
  obtain ⟨hA, hB, hC⟩ := addAt_spec cname st p t t' h
  rcases listSplit p q with ⟨r, hr⟩ | ⟨r, hr⟩ | ⟨s, a, b, r1, r2, hab, h1, h2⟩
  · cases r with
    | nil =>
      rw [List.append_nil] at hr
      subst hr
      obtain ⟨m0, m0', e1, e2, e3⟩ := hB q [] (by simp)
      rw [hm] at e1
      cases e1
      rw [hm'] at e2
      cases e2
      show m'.core.expanded = true
      rw [e3]
      simp [show m.core.expanded = true from hexp]
    | cons y r' =>
      by_cases hyc : y = cname
      · subst hyc
        subst hr
        exact absurd rfl (hq r')
      · have heq : t'.resolve_path q = t.resolve_path q := by
          apply hC
          · intro rr hrr
            subst hr
            have hlen := congrArg List.length hrr
            simp only [List.length_append, List.length_cons] at hlen
            omega
          · intro rr hrr
            subst hr
            have hcc := List.append_cancel_left hrr
            injection hcc with hh _
            exact hyc hh
        rw [heq, hm] at hm'
        cases hm'
        exact hexp
  · subst hr
    obtain ⟨m0, m0', e1, e2, e3⟩ := hB q r rfl
    rw [hm] at e1
    cases e1
    rw [hm'] at e2
    cases e2
    show m'.core.expanded = true
    rw [e3]
    simp [show m.core.expanded = true from hexp]
  · have heq : t'.resolve_path q = t.resolve_path q := by
      apply hC
      · intro rr hrr
        rw [h1, h2] at hrr
        have hcc := List.append_cancel_left (hrr.trans (List.append_assoc s (b :: r2) rr))
        rw [List.cons_append] at hcc
        injection hcc with hh _
        exact hab hh
      · intro rr hrr
        rw [h2, h1] at hrr
        have hcc := List.append_cancel_left
          (hrr.trans (List.append_assoc s (a :: r1) (cname :: rr)))
        rw [List.cons_append] at hcc
        injection hcc with hh _
        exact hab.symm hh
    rw [heq, hm] at hm'
    cases hm'
    exact hexp

theorem foldl_resolve_expanded {α : Type} (step : FlowNode → α → FlowNode)
    (hstep : ∀ (t : FlowNode) (a : α) (q : List String),
      ((step t a).resolve_path q).map (fun m => m.core.expanded)
        = (t.resolve_path q).map (fun m => m.core.expanded)) :
    ∀ (ps : List α) (t : FlowNode) (q : List String),
      ((ps.foldl step t).resolve_path q).map (fun m => m.core.expanded)
        = (t.resolve_path q).map (fun m => m.core.expanded) := by
  intro ps
  induction ps with
  | nil => intro t q; rfl
  | cons a ps' ih =>
    intro t q
    rw [List.foldl_cons, ih (step t a) q, hstep t a q]

theorem ingest_flagged_expanded :
    ∀ (ps : List (List String)) (t : FlowNode) (q : List String),
      ((t.ingest_flagged ps).resolve_path q).map (fun m => m.core.expanded)
        = (t.resolve_path q).map (fun m => m.core.expanded) := by
  intro ps t q
  refine foldl_resolve_expanded _ ?_ ps t q
  intro t p q
  cases hu : FlowNode.updateAt (fun m => m.withFlagged true) p t with
  | none => simp [hu]
  | some t'' =>
    simp only [hu, Option.getD_some]
    exact updateAt_pres_expanded (fun m => m.withFlagged true)
      (fun m => rfl) (fun m => rfl) (fun m => rfl) p t t'' hu q

theorem userExpandedKeep_core (e : Bool × FlowStatus) (m : FlowNode) :
    (userExpandedKeep e m).core.name = m.core.name
    ∧ (userExpandedKeep e m).children = m.children
    ∧ (userExpandedKeep e m).core.expanded = m.core.expanded := by
  unfold userExpandedKeep
  by_cases h : (e.1 || decide (m.status = e.2) || !decide (m.status ∈ EXPANDED_STATUSES)) = true
  · simp [h, FlowNode.setUserExpanded]
  · simp [h]

theorem ingest_user_expanded_expanded :
    ∀ (ps : List (List String × (Bool × FlowStatus))) (t : FlowNode) (q : List String),
      ((t.ingest_user_expanded ps).resolve_path q).map (fun m => m.core.expanded)
        = (t.resolve_path q).map (fun m => m.core.expanded) := by
  intro ps t q
  refine foldl_resolve_expanded _ ?_ ps t q
  intro t e q
  cases hu : FlowNode.updateAt (userExpandedKeep e.2) e.1 t with
  | none => simp [hu]
  | some t'' =>
    simp only [hu, Option.getD_some]
    exact updateAt_pres_expanded (userExpandedKeep e.2)
      (fun m => (userExpandedKeep_core e.2 m).1)
      (fun m => (userExpandedKeep_core e.2 m).2.1)
      (fun m => (userExpandedKeep_core e.2 m).2.2) e.1 t t'' hu q

theorem flagStatusF_core (st : FlowStatus) (l : Bool) (t : FlowNode) :
    (flagStatusF st l t).core.name = t.core.name
    ∧ (flagStatusF st l t).core.expanded = t.core.expanded
    ∧ (flagStatusF st l t).children = flagStatusListF st t.children := by
  cases t with
  | mk c cs =>
    by_cases h : (decide (c.status = st) && (!l || cs.isEmpty)) = true
    · simp [flagStatusF, h]
    · simp [flagStatusF, h]

theorem flagStatusListF_find (st : FlowStatus) :
    ∀ (cs : List FlowNode) (y : String),
      (flagStatusListF st cs).find? (fun c => c.name == y)
        = (cs.find? (fun c => c.name == y)).map (flagStatusF st true) := by
  intro cs
  induction cs with
  | nil => intro y; rfl
  | cons c rest ih =>
    intro y
    have hn : (flagStatusF st true c).name = c.name := (flagStatusF_core st true c).1
    show ((flagStatusF st true c :: flagStatusListF st rest).find? (fun c => c.name == y)) = _
    by_cases hy : (c.name == y) = true
    · have hy' : ((flagStatusF st true c).name == y) = true := by rw [hn]; exact hy
      simp [List.find?_cons, hy, hy']
    · have hyf : (c.name == y) = false := by simpa using hy
      have hy' : ((flagStatusF st true c).name == y) = false := by rw [hn]; exact hyf
      simp only [List.find?_cons, hyf, hy']
      exact ih y

theorem flagStatusF_resolve (st : FlowStatus) :
    ∀ (q : List String) (l : Bool) (t : FlowNode),
      ((flagStatusF st l t).resolve_path q).map (fun m => m.core.expanded)
        = (t.resolve_path q).map (fun m => m.core.expanded) := by
  intro q
  induction q with
  | nil =>
    intro l t
    simp only [FlowNode.resolve_path, Option.map_some']
    rw [(flagStatusF_core st l t).2.1]
  | cons y r ih =>
    intro l t
    simp only [FlowNode.resolve_path, FlowNode.childGet,
      (flagStatusF_core st l t).2.2, flagStatusListF_find st t.children y]
    cases t.children.find? (fun c => c.name == y) with
    | none => rfl
    | some d => exact ih true d

theorem resetFlaggedF_core (t : FlowNode) :
    (resetFlaggedF t).core.name = t.core.name
    ∧ (resetFlaggedF t).core.expanded = t.core.expanded
    ∧ (resetFlaggedF t).children = resetFlaggedListF t.children := by
  cases t with
  | mk c cs => simp [resetFlaggedF]

theorem resetFlaggedListF_find :
    ∀ (cs : List FlowNode) (y : String),
      (resetFlaggedListF cs).find? (fun c => c.name == y)
        = (cs.find? (fun c => c.name == y)).map resetFlaggedF := by
  intro cs
  induction cs with
  | nil => intro y; rfl
  | cons c rest ih =>
    intro y
    have hn : (resetFlaggedF c).name = c.name := (resetFlaggedF_core c).1
    show ((resetFlaggedF c :: resetFlaggedListF rest).find? (fun c => c.name == y)) = _
    by_cases hy : (c.name == y) = true
    · have hy' : ((resetFlaggedF c).name == y) = true := by rw [hn]; exact hy
      simp [List.find?_cons, hy, hy']
    · have hyf : (c.name == y) = false := by simpa using hy
      have hy' : ((resetFlaggedF c).name == y) = false := by rw [hn]; exact hyf
      simp only [List.find?_cons, hyf, hy']
      exact ih y

theorem resetFlaggedF_resolve :
    ∀ (q : List String) (t : FlowNode),
      ((resetFlaggedF t).resolve_path q).map (fun m => m.core.expanded)
        = (t.resolve_path q).map (fun m => m.core.expanded) := by
  intro q
  induction q with
  | nil =>
    intro t
    simp only [FlowNode.resolve_path, Option.map_some']
    rw [(resetFlaggedF_core t).2.1]
  | cons y r ih =>
    intro t
    simp only [FlowNode.resolve_path, FlowNode.childGet,
      (resetFlaggedF_core t).2.2, resetFlaggedListF_find t.children y]
    cases t.children.find? (fun c => c.name == y) with
    | none => rfl
    | some d => exact ih d

theorem ingest_focused_tree (r : RootFlowNode) (fp : List String)
    (bps : List (List String)) : (r.ingest_focused fp bps).tree = r.tree := by
  unfold RootFlowNode.ingest_focused
  by_cases h : subsetPaths r.tree.blink_paths bps = true
  · rw [if_pos h]
    cases r.tree.resolve_path fp with
    | none => rfl
    | some n => rfl
  · rw [if_neg (by simp [h])]

/-- C10: every root node (built by `RootFlowNode.__init__` or by the
parser) is expanded from creation, whatever its status; and `expanded`
is monotone: `set_expanded_recursively`, `add` (on every surviving node
— a same-named child replaced by `add` is a new object, not a mutated
one), `ingest_flagged`, `ingest_user_expanded`, `ingest_focused`,
`flag_status` and `reset_flagged` never turn a node's `expanded` flag
from true back to false (the ingest and flag operations never touch it
at all). -/
theorem claim_C10 :
    (∀ nm st now, (mkRootFlowNode nm st now).tree.expanded = true)
    ∧ (∀ nm st, (mkRootTree nm st).expanded = true)
    ∧ (∀ p t t', FlowNode.set_expanded_along p t = some t' →
        ∀ q m m', t.resolve_path q = some m → t'.resolve_path q = some m' →
          m.expanded = true → m'.expanded = true)
    ∧ (∀ cname st p t t', FlowNode.addAt cname st p t = some t' →
        ∀ q, (∀ r, q ≠ p ++ cname :: r) →
          ∀ m m', t.resolve_path q = some m → t'.resolve_path q = some m' →
            m.expanded = true → m'.expanded = true)
    ∧ (∀ ps t q, ((FlowNode.ingest_flagged t ps).resolve_path q).map
          (fun m => m.core.expanded)
        = (t.resolve_path q).map (fun m => m.core.expanded))
    ∧ (∀ ps t q, ((FlowNode.ingest_user_expanded t ps).resolve_path q).map
          (fun m => m.core.expanded)
        = (t.resolve_path q).map (fun m => m.core.expanded))
    ∧ (∀ (r : RootFlowNode) fp bps, (r.ingest_focused fp bps).tree = r.tree)
    ∧ (∀ st l t q, ((flagStatusF st l t).resolve_path q).map (fun m => m.core.expanded)
        = (t.resolve_path q).map (fun m => m.core.expanded))
    ∧ (∀ t q, ((resetFlaggedF t).resolve_path q).map (fun m => m.core.expanded)
        = (t.resolve_path q).map (fun m => m.core.expanded)) :=
  ⟨fun _ _ _ => rfl,
   fun _ _ => rfl,
   seAlong_mono,
   fun cname st p t t' h => addAt_mono cname st p t t' h,
   fun ps t q => ingest_flagged_expanded ps t q,
   fun ps t q => ingest_user_expanded_expanded ps t q,
   ingest_focused_tree,
   fun st l t q => flagStatusF_resolve st q l t,
   fun t q => resetFlaggedF_resolve q t⟩

/-- Witness for C10 at concrete inputs: a COMPLETE root is nevertheless
created expanded, and flag ingestion does not disturb `expanded`. -/
theorem claim_C10_witness :
    (mkRootFlowNode "A157" FlowStatus.COMPLETE 0).tree.expanded = true
    ∧ ((FlowNode.ingest_flagged c1tree [["a"]]).resolve_path ["a"]).map
        (fun m => m.core.expanded)
      = (c1tree.resolve_path ["a"]).map (fun m => m.core.expanded) :=
  ⟨claim_C10.1 "A157" FlowStatus.COMPLETE 0,
   claim_C10.2.2.2.2.1 [["a"]] c1tree ["a"]⟩

/-! ### Parser lemmas for the block-concatenation theorem (C4) -/

theorem lookupRoot_append (R1 m : List (String × FlowNode)) (k : String)
    (h : k ∉ R1.map Prod.fst) :
    lookupRoot (R1 ++ m) k = lookupRoot m k := by
  induction R1 with
  | nil => rfl
  | cons e es ih =>
    simp only [List.map_cons, List.mem_cons] at h
    push_neg at h
    have hk : (e.1 == k) = false := by simp [Ne.symm h.1]
    show ((e :: (es ++ m)).find? (fun e => e.1 == k)).map (fun e => e.2) = _
    simp only [List.find?_cons, hk]
    exact ih h.2

theorem upsertRoot_append (R1 m : List (String × FlowNode)) (k : String)
    (v : FlowNode) (h : k ∉ R1.map Prod.fst) :
    upsertRoot (R1 ++ m) k v = R1 ++ upsertRoot m k v := by
  induction R1 with
  | nil => rfl
  | cons e es ih =>
    simp only [List.map_cons, List.mem_cons] at h
    push_neg at h
    have hk : (e.1 == k) = false := by simp [Ne.symm h.1]
    show upsertRoot (e :: (es ++ m)) k v = _
    simp only [upsertRoot, hk, Bool.false_eq_true, if_false, List.cons_append]
    exact congrArg (e :: ·) (ih h.2)

theorem upsertRoot_keys_sub : ∀ (m : List (String × FlowNode)) (k : String)
    (v : FlowNode), m.map Prod.fst ⊆ (upsertRoot m k v).map Prod.fst := by
  intro m
  induction m with
  | nil => intro k v x hx; simp at hx
  | cons e es ih =>
    intro k v x hx
    by_cases he : (e.1 == k) = true
    · have : e.1 = k := by simpa using he
      simp only [upsertRoot, he, if_true, List.map_cons]
      simp only [List.map_cons, List.mem_cons] at hx
      rcases hx with hx | hx
      · exact List.mem_cons.mpr (Or.inl (by rw [hx, this]))
      · exact List.mem_cons.mpr (Or.inr hx)
    · have he' : (e.1 == k) = false := by simpa using he
      simp only [upsertRoot, he', Bool.false_eq_true, if_false, List.map_cons]
      simp only [List.map_cons, List.mem_cons] at hx
      rcases hx with hx | hx
      · exact List.mem_cons.mpr (Or.inl hx)
      · exact List.mem_cons.mpr (Or.inr (ih k v hx))

theorem upsertRoot_mem_keys : ∀ (m : List (String × FlowNode)) (k : String)
    (v : FlowNode), k ∈ (upsertRoot m k v).map Prod.fst := by
  intro m
  induction m with
  | nil => intro k v; simp [upsertRoot]
  | cons e es ih =>
    intro k v
    by_cases he : (e.1 == k) = true
    · simp [upsertRoot, he]
    · have he' : (e.1 == k) = false := by simpa using he
      simp only [upsertRoot, he', Bool.false_eq_true, if_false, List.map_cons]
      exact List.mem_cons.mpr (Or.inr (ih k v))

theorem tryTok_len : ∀ (cs : List Char) (t : Token) (r : List Char),
    tryTok cs = some (t, r) → 1 ≤ t.matchLen := by
  intro cs t r h
  simp only [tryTok] at h
  split at h
  · cases h
  · split at h
    · split at h
      · simp only [Option.some.injEq, Prod.mk.injEq] at h
        obtain ⟨ht, _⟩ := h
        rw [← ht]
        simp only [Token.matchLen]
        omega
      · cases h
    · cases h

theorem scanAux_len : ∀ (fuel : Nat) (cs : List Char) (t : Token),
    t ∈ scanAux fuel cs → 1 ≤ t.matchLen := by
  intro fuel
  induction fuel with
  | zero => intro cs t h; simp [scanAux] at h
  | succ n ih =>
    intro cs t h
    cases cs with
    | nil => simp [scanAux] at h
    | cons c rest =>
      simp only [scanAux] at h
      cases htk : tryTok (c :: rest) with
      | none =>
        rw [htk] at h
        exact ih rest t h
      | some pr =>
        obtain ⟨tk, rem⟩ := pr
        rw [htk] at h
        simp only [List.mem_cons] at h
        rcases h with h | h
        · subst h; exact tryTok_len _ _ _ htk
        · exact ih rem t h

theorem scanTokens_len (cs : List Char) (t : Token) (h : t ∈ scanTokens cs) :
    1 ≤ t.matchLen :=
  scanAux_len cs.length cs t h

theorem baseMatches_mem : ∀ (lm : List Token) (b : Nat) (t : Token),
    t ∈ baseMatches lm b → t ∈ lm := by
  intro lm
  induction lm with
  | nil => intro b t h; simp [baseMatches] at h
  | cons x xs ih =>
    intro b t h
    simp only [baseMatches] at h
    split at h
    · simp at h
    · simp only [List.mem_cons] at h
      rcases h with h | h
      · exact List.mem_cons.mpr (Or.inl h)
      · exact List.mem_cons.mpr (Or.inr (ih _ t h))

theorem foldlM_append_e {α β : Type} (f : β → α → Except String β) :
    ∀ (l1 l2 : List α) (b : β),
      List.foldlM f b (l1 ++ l2)
        = (List.foldlM f b l1).bind (fun b' => List.foldlM f b' l2) := by
  intro l1
  induction l1 with
  | nil => intro l2 b; rfl
  | cons a l1 ih =>
    intro l2 b
    simp only [List.cons_append, List.foldlM_cons]
    cases h : f b a with
    | error e => rfl
    | ok b' =>
      show List.foldlM f b' (l1 ++ l2) = _
      rw [ih l2 b']
      rfl

theorem processToken_ok_cases (suite : String) (st : ParseState) (tok : Token)
    (st' : ParseState) (h : processToken suite st tok = .ok st') :
    ∃ status, statusOfCode tok.code = some status ∧
    ((st.last_matches.isEmpty = true ∧ (stripSlashes tok.name == suite) = true ∧
        st' = { st with from_suite := true, last_matches := st.last_matches ++ [tok] })
     ∨ (st.last_matches.isEmpty = true ∧ (stripSlashes tok.name == suite) = false ∧
        ∃ cn, suiteRootEntry suite tok = .ok cn ∧
          st' = { root_nodes := upsertRoot st.root_nodes cn (mkRootTree cn status)
                  from_suite := false
                  current := some cn
                  last_matches := st.last_matches ++ [tok] })
     ∨ (st.last_matches.isEmpty = false ∧
          (st.last_matches.length == 1 && st.from_suite) = true ∧
        st' = { st with
                root_nodes := upsertRoot st.root_nodes tok.name (mkRootTree tok.name status)
                current := some tok.name
                last_matches := st.last_matches ++ [tok] })
     ∨ (st.last_matches.isEmpty = false ∧
          (st.last_matches.length == 1 && st.from_suite) = false ∧
        ∃ rname tree tree2, st.current = some rname
          ∧ lookupRoot st.root_nodes rname = some tree
          ∧ FlowNode.addAt tok.name status
              ((st.last_matches.drop
                (1 + (if st.from_suite then 1 else 0))).map Token.name) tree
              = some tree2
          ∧ st' = { st with
                    root_nodes := upsertRoot st.root_nodes rname tree2
                    last_matches := st.last_matches ++ [tok] })) := by
  cases hst : statusOfCode tok.code with
  | none =>
    simp only [processToken, hst] at h
    cases h
  | some status =>
    simp only [processToken, hst] at h
    refine ⟨status, rfl, ?_⟩
    split at h
    · next hemp =>
      split at h
      · next hsu =>
        cases h
        exact Or.inl ⟨hemp, by simpa using hsu, rfl⟩
      · next hsu =>
        split at h
        · cases h
        · next cn hse =>
          cases h
          exact Or.inr (Or.inl ⟨hemp, by simpa using hsu, cn, hse, rfl⟩)
    · next hemp =>
      have hemp' : st.last_matches.isEmpty = false := by simpa using hemp
      split at h
      · next hroot =>
        cases h
        exact Or.inr (Or.inr (Or.inl ⟨hemp', hroot, rfl⟩))
      · next hroot =>
        split at h
        · cases h
        · next rname hcur =>
          split at h
          · cases h
          · next tree hlk =>
            split at h
            · cases h
            · next tree2 had =>
              cases h
              exact Or.inr (Or.inr (Or.inr ⟨hemp', by simpa using hroot,
                rname, tree, tree2, hcur, hlk, had, rfl⟩))

theorem processToken_suite_true (suite : String) (st : ParseState) (tok : Token)
    (status : FlowStatus) (hst : statusOfCode tok.code = some status)
    (hemp : st.last_matches.isEmpty = true)
    (hsu : (stripSlashes tok.name == suite) = true) :
    processToken suite st tok
      = .ok { st with from_suite := true, last_matches := st.last_matches ++ [tok] } := by
  simp [processToken, hst, hemp, hsu]

theorem processToken_suite_root (suite : String) (st : ParseState) (tok : Token)
    (status : FlowStatus) (cn : String) (hst : statusOfCode tok.code = some status)
    (hemp : st.last_matches.isEmpty = true)
    (hsu : (stripSlashes tok.name == suite) = false)
    (hse : suiteRootEntry suite tok = .ok cn) :
    processToken suite st tok
      = .ok { root_nodes := upsertRoot st.root_nodes cn (mkRootTree cn status)
              from_suite := false
              current := some cn
              last_matches := st.last_matches ++ [tok] } := by
  simp [processToken, hst, hemp, hsu, hse]

theorem processToken_newroot (suite : String) (st : ParseState) (tok : Token)
    (status : FlowStatus) (hst : statusOfCode tok.code = some status)
    (hemp : st.last_matches.isEmpty = false)
    (hroot : (st.last_matches.length == 1 && st.from_suite) = true) :
    processToken suite st tok
      = .ok { st with
              root_nodes := upsertRoot st.root_nodes tok.name (mkRootTree tok.name status)
              current := some tok.name
              last_matches := st.last_matches ++ [tok] } := by
  simp [processToken, hst, hemp, hroot]

theorem processToken_usual (suite : String) (st : ParseState) (tok : Token)
    (status : FlowStatus) (rname : String) (tree tree2 : FlowNode)
    (hst : statusOfCode tok.code = some status)
    (hemp : st.last_matches.isEmpty = false)
    (hroot : (st.last_matches.length == 1 && st.from_suite) = false)
    (hcur : st.current = some rname)
    (hlk : lookupRoot st.root_nodes rname = some tree)
    (had : FlowNode.addAt tok.name status
        ((st.last_matches.drop (1 + (if st.from_suite then 1 else 0))).map Token.name)
        tree = some tree2) :
    processToken suite st tok
      = .ok { st with
              root_nodes := upsertRoot st.root_nodes rname tree2
              last_matches := st.last_matches ++ [tok] } := by
  simp only [processToken, hst, hemp, hroot, hcur, hlk, Bool.false_eq_true, if_false]
  rw [had]

theorem processToken_keys (suite : String) (st : ParseState) (tok : Token)
    (st' : ParseState) (h : processToken suite st tok = .ok st') :
    st.root_nodes.map Prod.fst ⊆ st'.root_nodes.map Prod.fst := by
  obtain ⟨status, hst, hc⟩ := processToken_ok_cases suite st tok st' h
  rcases hc with ⟨_, _, rfl⟩ | ⟨_, _, cn, _, rfl⟩ | ⟨_, _, rfl⟩
    | ⟨_, _, rname, tree, tree2, _, _, _, rfl⟩
  · exact fun x hx => hx
  · exact upsertRoot_keys_sub _ _ _
  · exact upsertRoot_keys_sub _ _ _
  · exact upsertRoot_keys_sub _ _ _

theorem processToken_good (suite : String) (st : ParseState) (tok : Token)
    (st' : ParseState) (h : processToken suite st tok = .ok st')
    (hg : goodState st) : goodState st' := by
  obtain ⟨status, hst, hc⟩ := processToken_ok_cases suite st tok st' h
  rcases hc with ⟨_, _, rfl⟩ | ⟨_, _, cn, _, rfl⟩ | ⟨_, _, rfl⟩
    | ⟨_, _, rname, tree, tree2, hcur, _, _, rfl⟩
  · intro r hr
    exact hg r hr
  · intro r hr
    cases hr
    exact upsertRoot_mem_keys _ _ _
  · intro r hr
    cases hr
    exact upsertRoot_mem_keys _ _ _
  · intro r hr
    exact upsertRoot_keys_sub _ _ _ (hg r hr)

theorem processToken_posLM (suite : String) (st : ParseState) (tok : Token)
    (st' : ParseState) (h : processToken suite st tok = .ok st')
    (hp : posLM st) (ht : 1 ≤ tok.matchLen) : posLM st' := by
  obtain ⟨status, hst, hc⟩ := processToken_ok_cases suite st tok st' h
  rcases hc with ⟨_, _, rfl⟩ | ⟨_, _, cn, _, rfl⟩ | ⟨_, _, rfl⟩
    | ⟨_, _, rname, tree, tree2, _, _, _, rfl⟩ <;>
  · intro x hx
    simp only [List.mem_append, List.mem_singleton] at hx
    rcases hx with hx | rfl
    · exact hp x hx
    · exact ht

theorem foldTok_keys (suite : String) : ∀ (toks : List Token) (st st' : ParseState),
    List.foldlM (processToken suite) st toks = .ok st' →
    st.root_nodes.map Prod.fst ⊆ st'.root_nodes.map Prod.fst := by
  intro toks
  induction toks with
  | nil =>
    intro st st' h
    cases h
    exact fun x hx => hx
  | cons t ts ih =>
    intro st st' h
    rw [List.foldlM_cons] at h
    cases h1 : processToken suite st t with
    | error e => rw [h1] at h; cases h
    | ok st1 =>
      rw [h1] at h
      have h2 : List.foldlM (processToken suite) st1 ts = .ok st' := h
      exact fun x hx => ih st1 st' h2 (processToken_keys suite st t st1 h1 hx)

theorem foldTok_posLM (suite : String) : ∀ (toks : List Token) (st st' : ParseState),
    List.foldlM (processToken suite) st toks = .ok st' →
    (∀ t, t ∈ toks → 1 ≤ t.matchLen) → posLM st → posLM st' := by
  intro toks
  induction toks with
  | nil =>
    intro st st' h _ hp
    cases h
    exact hp
  | cons t ts ih =>
    intro st st' h htoks hp
    rw [List.foldlM_cons] at h
    cases h1 : processToken suite st t with
    | error e => rw [h1] at h; cases h
    | ok st1 =>
      rw [h1] at h
      have h2 : List.foldlM (processToken suite) st1 ts = .ok st' := h
      exact ih st1 st' h2 (fun x hx => htoks x (List.mem_cons.mpr (Or.inr hx)))
        (processToken_posLM suite st t st1 h1 hp (htoks t (List.mem_cons.mpr (Or.inl rfl))))

theorem processLine_cases (suite : String) (st : ParseState) (line : String)
    (st' : ParseState) (h : processLine suite st line = .ok st') :
    st' = st ∨ ∃ t0 rest,
      ignoreLine line = false
      ∧ scanTokens (shortLine line) = t0 :: rest
      ∧ List.foldlM (processToken suite)
          { st with last_matches := baseMatches st.last_matches (countBlanks line) }
          (t0 :: rest) = .ok st' := by
  simp only [processLine] at h
  split at h
  · cases h; exact Or.inl rfl
  · next hig =>
    split at h
    · next hscan => cases h; exact Or.inl rfl
    · next t0 rest hscan =>
      exact Or.inr ⟨t0, rest, by simpa using hig, hscan, h⟩

theorem processLine_keys (suite : String) (st : ParseState) (line : String)
    (st' : ParseState) (h : processLine suite st line = .ok st') :
    st.root_nodes.map Prod.fst ⊆ st'.root_nodes.map Prod.fst := by
  rcases processLine_cases suite st line st' h with rfl | ⟨t0, rest, _, _, hfold⟩
  · exact fun x hx => hx
  · have hsub := foldTok_keys suite (t0 :: rest)
      { st with last_matches := baseMatches st.last_matches (countBlanks line) }
      st' hfold
    exact fun x hx => hsub hx

theorem processLine_posLM (suite : String) (st : ParseState) (line : String)
    (st' : ParseState) (h : processLine suite st line = .ok st')
    (hp : posLM st) : posLM st' := by
  rcases processLine_cases suite st line st' h with rfl | ⟨t0, rest, _, hscan, hfold⟩
  · exact hp
  · refine foldTok_posLM suite (t0 :: rest) _ st' hfold ?_ ?_
    · intro t ht
      exact scanTokens_len _ t (hscan ▸ ht)
    · intro x hx
      exact hp x (baseMatches_mem _ _ x hx)

theorem foldLines_keys (suite : String) : ∀ (ls : List String) (st st' : ParseState),
    List.foldlM (processLine suite) st ls = .ok st' →
    st.root_nodes.map Prod.fst ⊆ st'.root_nodes.map Prod.fst := by
  intro ls
  induction ls with
  | nil =>
    intro st st' h
    cases h
    exact fun x hx => hx
  | cons l ls ih =>
    intro st st' h
    rw [List.foldlM_cons] at h
    cases h1 : processLine suite st l with
    | error e => rw [h1] at h; cases h
    | ok st1 =>
      rw [h1] at h
      have h2 : List.foldlM (processLine suite) st1 ls = .ok st' := h
      exact fun x hx => ih st1 st' h2 (processLine_keys suite st l st1 h1 hx)

theorem foldLines_posLM (suite : String) : ∀ (ls : List String) (st st' : ParseState),
    List.foldlM (processLine suite) st ls = .ok st' → posLM st → posLM st' := by
  intro ls
  induction ls with
  | nil =>
    intro st st' h hp
    cases h
    exact hp
  | cons l ls ih =>
    intro st st' h hp
    rw [List.foldlM_cons] at h
    cases h1 : processLine suite st l with
    | error e => rw [h1] at h; cases h
    | ok st1 =>
      rw [h1] at h
      have h2 : List.foldlM (processLine suite) st1 ls = .ok st' := h
      exact ih st1 st' h2 (processLine_posLM suite st l st1 h1 hp)

/-- One-token simulation: a token step of a block parsed from the
initial state is mirrored, step for step, by the same token processed
after an earlier block with result map `R1`, as long as the fresh run's
root names stay clear of `R1`. -/
theorem simTok (suite : String) (R1 : List (String × FlowNode))
    (f g f' : ParseState) (tok : Token)
    (hrel : relW R1 f g)
    (hok : processToken suite f tok = .ok f')
    (hdisj : ∀ k, k ∈ f'.root_nodes.map Prod.fst → k ∉ R1.map Prod.fst) :
    ∃ g', processToken suite g tok = .ok g' ∧ relW R1 f' g' := by
  obtain ⟨hrn, hlm, hcur, hfs, hgood⟩ := hrel
  have hgood' : goodState f' := processToken_good suite f tok f' hok hgood
  obtain ⟨status, hst, hc⟩ := processToken_ok_cases suite f tok f' hok
  rcases hc with ⟨hemp, hsu, rfl⟩ | ⟨hemp, hsu, cn, hse, rfl⟩ | ⟨hemp, hroot, rfl⟩
    | ⟨hemp, hroot, rname, tree, tree2, hcurf, hlk, had, rfl⟩
  · -- the token is the suite itself
    have hgemp : g.last_matches.isEmpty = true := by rw [hlm]; exact hemp
    refine ⟨_, processToken_suite_true suite g tok status hst hgemp hsu, ?_⟩
    exact ⟨hrn, by simp only [hlm], hcur, Or.inr rfl, hgood'⟩
  · -- a combined suite/root token creates a root entry
    have hgemp : g.last_matches.isEmpty = true := by rw [hlm]; exact hemp
    have hknotin : cn ∉ R1.map Prod.fst :=
      hdisj cn (upsertRoot_mem_keys f.root_nodes cn (mkRootTree cn status))
    refine ⟨_, processToken_suite_root suite g tok status cn hst hgemp hsu hse, ?_⟩
    refine ⟨?_, by simp only [hlm], Or.inr rfl, Or.inr rfl, hgood'⟩
    show upsertRoot g.root_nodes cn (mkRootTree cn status) = R1 ++ _
    rw [hrn]
    exact upsertRoot_append R1 f.root_nodes cn _ hknotin
  · -- a new top-level root under the suite line
    have hflm : ¬f.last_matches = [] := by
      intro he
      rw [he] at hemp
      simp at hemp
    have hfs' : g.from_suite = f.from_suite := by
      rcases hfs with hfl | h
      · exact absurd hfl hflm
      · exact h
    have hgemp : g.last_matches.isEmpty = false := by rw [hlm]; exact hemp
    have hgroot : (g.last_matches.length == 1 && g.from_suite) = true := by
      rw [hlm, hfs']; exact hroot
    have hknotin : tok.name ∉ R1.map Prod.fst :=
      hdisj tok.name (upsertRoot_mem_keys f.root_nodes tok.name (mkRootTree tok.name status))
    refine ⟨_, processToken_newroot suite g tok status hst hgemp hgroot, ?_⟩
    refine ⟨?_, by simp only [hlm], Or.inr rfl, Or.inr hfs', hgood'⟩
    show upsertRoot g.root_nodes tok.name (mkRootTree tok.name status) = R1 ++ _
    rw [hrn]
    exact upsertRoot_append R1 f.root_nodes tok.name _ hknotin
  · -- an ordinary node attached under the current root
    have hflm : ¬f.last_matches = [] := by
      intro he
      rw [he] at hemp
      simp at hemp
    have hfs' : g.from_suite = f.from_suite := by
      rcases hfs with hfl | h
      · exact absurd hfl hflm
      · exact h
    have hgcur : g.current = some rname := by
      rcases hcur with hnone | heq
      · rw [hnone] at hcurf; cases hcurf
      · rw [heq]; exact hcurf
    have hrmem : rname ∈ f.root_nodes.map Prod.fst := hgood rname hcurf
    have hrnotin : rname ∉ R1.map Prod.fst :=
      hdisj rname (upsertRoot_keys_sub f.root_nodes rname tree2 hrmem)
    have hglk : lookupRoot g.root_nodes rname = some tree := by
      rw [hrn, lookupRoot_append R1 f.root_nodes rname hrnotin]
      exact hlk
    have hgemp : g.last_matches.isEmpty = false := by rw [hlm]; exact hemp
    have hgroot : (g.last_matches.length == 1 && g.from_suite) = false := by
      rw [hlm, hfs']; exact hroot
    have hgadd : FlowNode.addAt tok.name status
        ((g.last_matches.drop (1 + (if g.from_suite then 1 else 0))).map Token.name)
        tree = some tree2 := by
      rw [hlm, hfs']; exact had
    refine ⟨_, processToken_usual suite g tok status rname tree tree2 hst hgemp
      hgroot hgcur hglk hgadd, ?_⟩
    refine ⟨?_, by simp only [hlm], hcur, Or.inr hfs', hgood'⟩
    show upsertRoot g.root_nodes rname tree2 = R1 ++ _
    rw [hrn]
    exact upsertRoot_append R1 f.root_nodes rname _ hrnotin

theorem simToks (suite : String) (R1 : List (String × FlowNode)) :
    ∀ (toks : List Token) (f g fF : ParseState),
      relW R1 f g →
      List.foldlM (processToken suite) f toks = .ok fF →
      (∀ k, k ∈ fF.root_nodes.map Prod.fst → k ∉ R1.map Prod.fst) →
      ∃ gF, List.foldlM (processToken suite) g toks = .ok gF ∧ relW R1 fF gF := by
  intro toks
  induction toks with
  | nil =>
    intro f g fF hrel h hdisj
    cases h
    exact ⟨g, rfl, hrel⟩
  | cons t ts ih =>
    intro f g fF hrel h hdisj
    rw [List.foldlM_cons] at h
    cases h1 : processToken suite f t with
    | error e => rw [h1] at h; cases h
    | ok f1 =>
      rw [h1] at h
      have h2 : List.foldlM (processToken suite) f1 ts = .ok fF := h
      have hdisj1 : ∀ k, k ∈ f1.root_nodes.map Prod.fst → k ∉ R1.map Prod.fst :=
        fun k hk => hdisj k (foldTok_keys suite ts f1 fF h2 hk)
      obtain ⟨g1, hg1, hrel1⟩ := simTok suite R1 f g f1 t hrel h1 hdisj1
      obtain ⟨gF, hgF, hrelF⟩ := ih f1 g1 fF hrel1 h2 hdisj
      refine ⟨gF, ?_, hrelF⟩
      rw [List.foldlM_cons, hg1]
      exact hgF

theorem simLine (suite : String) (R1 : List (String × FlowNode))
    (f g f' : ParseState) (line : String)
    (hrel : relW R1 f g)
    (hok : processLine suite f line = .ok f')
    (hdisj : ∀ k, k ∈ f'.root_nodes.map Prod.fst → k ∉ R1.map Prod.fst) :
    ∃ g', processLine suite g line = .ok g' ∧ relW R1 f' g' := by
  obtain ⟨hrn, hlm, hcur, hfs, hgood⟩ := hrel
  by_cases hig : ignoreLine line = true
  · have hf : f' = f := by
      simp only [processLine, hig, if_true, Except.ok.injEq] at hok
      exact hok.symm
    subst hf
    exact ⟨g, by simp [processLine, hig], hrn, hlm, hcur, hfs, hgood⟩
  · cases hscan : scanTokens (shortLine line) with
    | nil =>
      have hf : f' = f := by
        simp only [processLine, hig, Bool.false_eq_true, if_false, hscan,
          Except.ok.injEq] at hok
        exact hok.symm
      subst hf
      exact ⟨g, by simp [processLine, hig, hscan], hrn, hlm, hcur, hfs, hgood⟩
    | cons t0 rest =>
      have hok0 : List.foldlM (processToken suite)
          { f with last_matches := baseMatches f.last_matches (countBlanks line) }
          (t0 :: rest) = .ok f' := by
        simp only [processLine, hig, Bool.false_eq_true, if_false, hscan] at hok
        exact hok
      have hrel0 : relW R1
          { f with last_matches := baseMatches f.last_matches (countBlanks line) }
          { g with last_matches := baseMatches g.last_matches (countBlanks line) } := by
        refine ⟨hrn, by rw [hlm], hcur, ?_, hgood⟩
        rcases hfs with hfl | h
        · left
          show baseMatches f.last_matches (countBlanks line) = []
          rw [hfl]
          rfl
        · exact Or.inr h
      obtain ⟨gF, hgfold, hrelF⟩ :=
        simToks suite R1 (t0 :: rest) _ _ f' hrel0 hok0 hdisj
      refine ⟨gF, ?_, hrelF⟩
      simp only [processLine, hig, Bool.false_eq_true, if_false, hscan]
      exact hgfold

theorem simRun (suite : String) (R1 : List (String × FlowNode)) :
    ∀ (ls : List String) (f g fF : ParseState),
      List.foldlM (processLine suite) f ls = .ok fF →
      (∀ k, k ∈ fF.root_nodes.map Prod.fst → k ∉ R1.map Prod.fst) →
      (relW R1 f g
        ∨ (f.last_matches = [] ∧ f.current = none
            ∧ g.root_nodes = R1 ++ f.root_nodes
            ∧ goodState f ∧ posLM g ∧ beginsAtZeroIndent ls = true)) →
      ∃ gF, List.foldlM (processLine suite) g ls = .ok gF
        ∧ gF.root_nodes = R1 ++ fF.root_nodes := by
  intro ls
  induction ls with
  | nil =>
    intro f g fF h hdisj hinv
    cases h
    rcases hinv with ⟨hrn, _⟩ | ⟨_, _, hrn, _⟩ <;> exact ⟨g, rfl, hrn⟩
  | cons l ls ih =>
    intro f g fF h hdisj hinv
    rw [List.foldlM_cons] at h
    cases h1 : processLine suite f l with
    | error e => rw [h1] at h; cases h
    | ok f1 =>
      rw [h1] at h
      have h2 : List.foldlM (processLine suite) f1 ls = .ok fF := h
      have hdisj1 : ∀ k, k ∈ f1.root_nodes.map Prod.fst → k ∉ R1.map Prod.fst :=
        fun k hk => hdisj k (foldLines_keys suite ls f1 fF h2 hk)
      rcases hinv with hrel | ⟨hflm, hfcur, hrn, hgood, hposg, hzero⟩
      · obtain ⟨g1, hg1, hrel1⟩ := simLine suite R1 f g f1 l hrel h1 hdisj1
        obtain ⟨gF, hgF, hrnF⟩ := ih f1 g1 fF h2 hdisj (Or.inl hrel1)
        refine ⟨gF, ?_, hrnF⟩
        rw [List.foldlM_cons, hg1]
        exact hgF
      · by_cases hig : ignoreLine l = true
        · have hf : f1 = f := by
            simp only [processLine, hig, if_true, Except.ok.injEq] at h1
            exact h1.symm
          subst hf
          have hzero' : beginsAtZeroIndent ls = true := by
            simpa [beginsAtZeroIndent, hig] using hzero
          obtain ⟨gF, hgF, hrnF⟩ := ih f1 g fF h2 hdisj
            (Or.inr ⟨hflm, hfcur, hrn, hgood, hposg, hzero'⟩)
          refine ⟨gF, ?_, hrnF⟩
          rw [List.foldlM_cons,
            show processLine suite g l = .ok g from by simp [processLine, hig]]
          exact hgF
        · cases hscan : scanTokens (shortLine l) with
          | nil =>
            have hf : f1 = f := by
              simp only [processLine, hig, Bool.false_eq_true, if_false, hscan,
                Except.ok.injEq] at h1
              exact h1.symm
            subst hf
            have hzero' : beginsAtZeroIndent ls = true := by
              simpa [beginsAtZeroIndent, hig, hscan] using hzero
            obtain ⟨gF, hgF, hrnF⟩ := ih f1 g fF h2 hdisj
              (Or.inr ⟨hflm, hfcur, hrn, hgood, hposg, hzero'⟩)
            refine ⟨gF, ?_, hrnF⟩
            rw [List.foldlM_cons,
              show processLine suite g l = .ok g from by simp [processLine, hig, hscan]]
            exact hgF
          | cons t0 rest =>
            have hbl : countBlanks l = 0 := by
              have := hzero
              simp only [beginsAtZeroIndent, hig, Bool.false_eq_true, if_false,
                hscan] at this
              simpa using this
            have hok0 : List.foldlM (processToken suite)
                { f with last_matches := baseMatches f.last_matches (countBlanks l) }
                (t0 :: rest) = .ok f1 := by
              simp only [processLine, hig, Bool.false_eq_true, if_false, hscan] at h1
              exact h1
            have hst0f : baseMatches f.last_matches (countBlanks l) = [] := by
              rw [hflm]
              rfl
            have hst0g : baseMatches g.last_matches (countBlanks l) = [] := by
              rw [hbl]
              cases hgl : g.last_matches with
              | nil => rfl
              | cons t ts =>
                have hpos := hposg t (by rw [hgl]; exact List.mem_cons_self t ts)
                show baseMatches (t :: ts) 0 = []
                simp only [baseMatches]
                rw [if_pos]
                omega
            have hrel0 : relW R1
                { f with last_matches := baseMatches f.last_matches (countBlanks l) }
                { g with last_matches := baseMatches g.last_matches (countBlanks l) } := by
              refine ⟨hrn, ?_, Or.inl hfcur, ?_, hgood⟩
              · rw [hst0f, hst0g]
              · left
                exact hst0f
            obtain ⟨g1, hg1fold, hrel1⟩ :=
              simToks suite R1 (t0 :: rest) _ _ f1 hrel0 hok0 hdisj1
            obtain ⟨gF, hgF, hrnF⟩ := ih f1 g1 fF h2 hdisj (Or.inl hrel1)
            refine ⟨gF, ?_, hrnF⟩
            rw [List.foldlM_cons,
              show processLine suite g l = .ok g1 from by
                simp only [processLine, hig, Bool.false_eq_true, if_false, hscan]
                exact hg1fold]
            exact hgF

/-- C4: parsing the concatenation of two well-formed status blocks with
disjoint root-name sets yields the ordered union of their root maps,
each root's tree literally (hence structurally) equal to its stand-alone
parse.  Well-formedness is: each block parses successfully on its own,
and the second block's first match-bearing line starts at column zero
(the shape of every status reply, which opens with the monitored suite
line at zero indentation). -/
theorem claim_C4 (suite : String) (b1 b2 : List String)
    (R1 R2 : List (String × FlowNode))
    (h1 : parse_status_output suite b1 = .ok R1)
    (h2 : parse_status_output suite b2 = .ok R2)
    (hdisj : ∀ k, k ∈ R1.map Prod.fst → k ∈ R2.map Prod.fst → False)
    (hzero : beginsAtZeroIndent b2 = true) :
    parse_status_output suite (b1 ++ b2) = .ok (R1 ++ R2) := by
  unfold parse_status_output at h1 h2 ⊢
  cases hs1 : List.foldlM (processLine suite) (⟨[], false, none, []⟩ : ParseState) b1 with
  | error e => rw [hs1] at h1; cases h1
  | ok s1 =>
    rw [hs1] at h1
    have hrn1 : s1.root_nodes = R1 := by
      simpa [Except.map] using h1
    cases hs2 : List.foldlM (processLine suite) (⟨[], false, none, []⟩ : ParseState) b2 with
    | error e => rw [hs2] at h2; cases h2
    | ok s2 =>
      rw [hs2] at h2
      have hrn2 : s2.root_nodes = R2 := by
        simpa [Except.map] using h2
      have hpos1 : posLM s1 :=
        foldLines_posLM suite b1 _ s1 hs1 (fun t ht => absurd ht (List.not_mem_nil t))
      have hdisjF : ∀ k, k ∈ s2.root_nodes.map Prod.fst → k ∉ R1.map Prod.fst := by
        intro k hk hk1
        rw [hrn2] at hk
        exact hdisj k hk1 hk
      have hgood0 : goodState (⟨[], false, none, []⟩ : ParseState) := by
        intro r hr
        cases hr
      have hrn1' : s1.root_nodes
          = R1 ++ (⟨[], false, none, []⟩ : ParseState).root_nodes := by
        rw [hrn1]; simp
      obtain ⟨gF, hgfold, hrnF⟩ := simRun suite R1 b2 ⟨[], false, none, []⟩ s1 s2 hs2
        hdisjF
        (Or.inr ⟨rfl, rfl, hrn1', hgood0, hpos1, hzero⟩)
      rw [foldlM_append_e (processLine suite) b1 b2 _, hs1]
      show Except.map ParseState.root_nodes (List.foldlM (processLine suite) s1 b2)
        = Except.ok (R1 ++ R2)
      rw [hgfold]
      show Except.ok gF.root_nodes = _
      rw [hrnF, hrn2]

/-- Witness for C4: two one-line `groucho` blocks with disjoint roots
`r1` and `r2`; the concatenated parse is the union of the stand-alone
parses. -/
theorem claim_C4_witness :
    parse_status_output "groucho" c4b1 = .ok c4R1
    ∧ parse_status_output "groucho" c4b2 = .ok c4R2
    ∧ beginsAtZeroIndent c4b2 = true
    ∧ parse_status_output "groucho" (c4b1 ++ c4b2) = .ok (c4R1 ++ c4R2) := by
  have hp1 : parse_status_output "groucho" c4b1 = .ok c4R1 := rfl
  have hp2 : parse_status_output "groucho" c4b2 = .ok c4R2 := rfl
  exact ⟨hp1, hp2, rfl,
    claim_C4 "groucho" c4b1 c4b2 c4R1 c4R2 hp1 hp2 (by decide) rfl⟩

end TFlowClient
